import Mathlib

/-!
Verification development for the Mermaid-mindmap codec of the mindmap editor
(src/app/components/MindMap.tsx).

JavaScript strings are modelled as `List Char` (one element per code point).
All string primitives used by the code (`trim`, `split('\n')`, `indexOf`,
`substring`, `replace(/pat/g, rep)`, `startsWith`, `endsWith`,
`toLowerCase`) are given faithful executable counterparts below; each
definition notes the JS behaviour it mirrors.  Random id minting
(`Math.random().toString(36).substr(2, 9)`) is replaced by a deterministic
counter, which is the only semantic requirement (uniqueness within a parse).
-/

namespace MindMap

/-- Characters treated as whitespace by JS `trim()` and the regex class
used by `getIndent` (the code points actually exercised by this codec). -/
def isJsSpace (c : Char) : Bool :=
  c = ' ' || c = '\t' || c = '\n' || c = '\r' || c = '\x0b' || c = '\x0c' ||
  c = ' ' || c = '﻿'

/-- JS `String.prototype.trim`: strip leading and trailing whitespace. -/
def trimJs (s : List Char) : List Char :=
  ((s.dropWhile isJsSpace).reverse.dropWhile isJsSpace).reverse

/-- Indentation width of a line: `line.match(/^(\s*)/)[1].length`. -/
def getIndent (s : List Char) : Nat :=
  (s.takeWhile isJsSpace).length

/-- JS `s.split('\n')`: always returns at least one (possibly empty) piece. -/
def splitNl : List Char → List (List Char)
  | [] => [[]]
  | c :: rest =>
    match splitNl rest with
    | [] => [[]]
    | h :: t => if c = '\n' then [] :: h :: t else (c :: h) :: t

/-- JS `lines.join('\n')`. -/
def joinNl : List (List Char) → List Char
  | [] => []
  | [l] => l
  | l :: l' :: ls => l ++ '\n' :: joinNl (l' :: ls)

/-- JS `toLowerCase`, restricted to the code points this codec compares. -/
def toLowerJs (s : List Char) : List Char :=
  s.map Char.toLower

/-- Boolean list-prefix test (JS `startsWith`). -/
def isPre : List Char → List Char → Bool
  | [], _ => true
  | _ :: _, [] => false
  | a :: as, b :: bs => if a = b then isPre as bs else false

/-- Boolean list-suffix test (JS `endsWith`). -/
def isSuf (p s : List Char) : Bool :=
  isPre p.reverse s.reverse

/-- JS `s.indexOf(p)` for a nonempty pattern, as an `Option Nat`
(`none` plays the role of `-1`). -/
def indexOfJs (s p : List Char) : Option Nat :=
  match s with
  | [] => if p = [] then some 0 else none
  | _ :: rest =>
    if isPre p s then some 0 else (indexOfJs rest p).map (· + 1)

/-- JS `s.substring(a, b)` for nonnegative arguments: clamps both indices
to the length and swaps them when `a > b`. -/
def jsSubstring (s : List Char) (a b : Nat) : List Char :=
  let n := s.length
  let lo := min (min a n) (min b n)
  let hi := max (min a n) (min b n)
  (s.drop lo).take (hi - lo)

/-- The scan of JS `s.replace(pat, rep)` with a global literal pattern:
left to right, non-overlapping, resuming after each replacement. Each
scan step either consumes one character or a nonempty match, so
`s.length` steps always suffice; the step bound is explicit so that the
function evaluates by kernel reduction. -/
def replaceAllF (p r : List Char) : Nat → List Char → List Char
  | _, [] => []
  | 0, s => s
  | f + 1, c :: rest =>
    if p ≠ [] ∧ isPre p (c :: rest) then
      r ++ replaceAllF p r f ((c :: rest).drop p.length)
    else
      c :: replaceAllF p r f rest

/-- JS `s.replace(pat, rep)` with a global literal pattern. -/
def replaceAll (p r : List Char) (s : List Char) : List Char :=
  replaceAllF p r s.length s

/-- Above the length of the text, the step bound does not matter. -/
theorem replaceAllF_eq (p r : List Char) : ∀ (f : Nat) (s : List Char),
    s.length ≤ f → replaceAllF p r f s = replaceAll p r s := by
  intro f
  induction f using Nat.strong_induction_on with
  | _ f ih =>
    intro s hs
    cases s with
    | nil => cases f <;> rfl
    | cons c rest =>
      cases f with
      | zero => simp at hs
      | succ f' =>
        rw [show replaceAll p r (c :: rest)
          = replaceAllF p r (rest.length + 1) (c :: rest) from by
            rw [replaceAll, List.length_cons]]
        rw [replaceAllF, replaceAllF]
        simp only [List.length_cons] at hs
        by_cases hcond : p ≠ [] ∧ isPre p (c :: rest) = true
        · rw [if_pos hcond, if_pos hcond]
          have hp1 : 1 ≤ p.length := by
            cases hp : p with
            | nil => exact absurd hp hcond.1
            | cons x xs => simp
          have hd : ((c :: rest).drop p.length).length ≤ rest.length := by
            simp only [List.length_drop, List.length_cons]
            omega
          rw [ih f' (by omega) _ (by omega),
            ih rest.length (by omega) _ (by omega)]
        · rw [if_neg hcond, if_neg hcond]
          rw [ih f' (by omega) rest (by omega),
            ih rest.length (by omega) rest (by omega)]

theorem replaceAll_nil (p r : List Char) : replaceAll p r [] = [] := rfl

/-- Whether `p` occurs as a contiguous sublist of `s` (used to state
cleanliness side conditions; corresponds to `s.indexOf(p) !== -1`). -/
def hasOcc (s p : List Char) : Bool :=
  (indexOfJs s p).isSome

/-! ### Data model

`NodeData` mirrors the TypeScript interface: `direction` and `expanded`
are optional, and `children` is an optional array. Branch direction is
kept as the literal values `0`/`1` the code compares against. -/

inductive NodeData : Type where
  | mk (id : List Char) (topic : List Char) (direction : Option Nat)
       (expanded : Option Bool) (children : Option (List NodeData))

/-- The node's `id` field. -/
def idOf : NodeData → List Char
  | .mk i _ _ _ _ => i

/-- The node's `topic` field. -/
def topicOf : NodeData → List Char
  | .mk _ t _ _ _ => t

/-- The node's `direction` field. -/
def dirOf : NodeData → Option Nat
  | .mk _ _ d _ _ => d

/-- The node's `expanded` field. -/
def expOf : NodeData → Option Bool
  | .mk _ _ _ e _ => e

/-- The node's `children` field. -/
def chOf : NodeData → Option (List NodeData)
  | .mk _ _ _ _ c => c

/-- The node's children as a plain list (`node.children || []`). -/
def childrenList (n : NodeData) : List NodeData :=
  (chOf n).getD []

/-- `MindElixirData` restricted to the field the codec reads and writes. -/
structure MMData : Type where
  nodeData : Option NodeData

/-! ### normalizeNodeData / normalizeMindElixirData (source lines 32-52) -/

mutual

/-- Source `normalizeNodeData`: force `expanded` (default `true`) and
`children` (default `[]`) to be present on every node; keep `direction`
only when it was defined. -/
def normalizeNodeData : NodeData → NodeData
  | .mk i t d e ch => .mk i t d (some (e.getD true)) (some (normChildrenOpt ch))

/-- Children of a node being normalized: `(node.children || []).map(...)`. -/
def normChildrenOpt : Option (List NodeData) → List NodeData
  | none => []
  | some cs => normChildren cs

/-- Map `normalizeNodeData` over a list of children. -/
def normChildren : List NodeData → List NodeData
  | [] => []
  | c :: cs => normalizeNodeData c :: normChildren cs

end

/-- Source `normalizeMindElixirData`: normalize `nodeData` when present. -/
def normalizeMindElixirData (d : MMData) : MMData :=
  match d.nodeData with
  | none => d
  | some n => ⟨some (normalizeNodeData n)⟩

/-! ### Serializer: dataToMermaid (source lines 56-90) -/

/-- Escape rule of the serializer: `topic.replace(/"/g, '#quot;')`. -/
def escapeTopic (t : List Char) : List Char :=
  replaceAll "\"".data "#quot;".data t

/-- Indentation emitted for a node: `'  '.repeat(depth)`. -/
def indentStr (d : Nat) : List Char :=
  List.replicate (2 * d) ' '

/-- Direction tag emitted inside the quotes: `[R] ` / `[L] ` only when
`depth === 2` and `direction` is `1` / `0`. -/
def dirTag (depth : Nat) (dir : Option Nat) : List Char :=
  if depth = 2 then
    if dir = some 1 then "[R] ".data
    else if dir = some 0 then "[L] ".data
    else []
  else []

/-- The single line emitted for a node by `processNode`. -/
def lineFor (topic : List Char) (dir : Option Nat) (depth : Nat)
    (isRoot : Bool) : List Char :=
  if isRoot then
    indentStr depth ++ "root((\"".data ++ escapeTopic topic ++ "\"))".data
  else
    indentStr depth ++ "\"".data ++ dirTag depth dir ++ escapeTopic topic
      ++ "\"".data

mutual

/-- Source `processNode`: emit the node's line, then the lines of its
children at `depth + 1` (pre-order). -/
def processNode (n : NodeData) (depth : Nat) (isRoot : Bool) :
    List (List Char) :=
  match n with
  | .mk _ topic dir _ ch =>
    lineFor topic dir depth isRoot :: processChildrenOpt ch (depth + 1)

/-- Lines for an optional child array (absent or empty arrays emit no
lines, matching `if (node.children && node.children.length > 0)`). -/
def processChildrenOpt : Option (List NodeData) → Nat → List (List Char)
  | none, _ => []
  | some cs, d => processChildren cs d

/-- Lines for a list of children, in order. -/
def processChildren : List NodeData → Nat → List (List Char)
  | [], _ => []
  | c :: rest, d => processNode c d false ++ processChildren rest d

end

/-- Source `dataToMermaid`: header line `mindmap`, then the root's lines
(the root is emitted at depth 1); joined with newlines. -/
def dataToMermaid (d : MMData) : List Char :=
  joinNl ("mindmap".data ::
    (match d.nodeData with
     | some n => processNode n 1 true
     | none => []))

/-! ### Parser: mermaidToData (source lines 94-233) -/

/-- The legacy-entity unescape chain applied to extracted content, in
source order: `#quot;` then `&quot;` then `&lt;` then `&gt;` then `&amp;`. -/
def unescapeContent (c : List Char) : List Char :=
  replaceAll "&amp;".data "&".data
    (replaceAll "&gt;".data ">".data
      (replaceAll "&lt;".data "<".data
        (replaceAll "&quot;".data "\"".data
          (replaceAll "#quot;".data "\"".data c))))

/-- Delimiter pairs tried in priority order by `extractContent`. -/
def delimPairs : List (List Char × List Char) :=
  [("((".data, "))".data), ("[[".data, "]]".data),
   ("\x7b\x7b".data, "\x7d\x7d".data),
   ("[".data, "]".data), ("(".data, ")".data),
   ("\x7b".data, "\x7d".data)]

/-- The delimiter loop of `extractContent`: take the substring between the
first pair whose opener occurs and whose closer ends the text; otherwise
the text itself. -/
def findDelimContent : List (List Char × List Char) → List Char → List Char
  | [], t => t
  | (o, c) :: rest, t =>
    match indexOfJs t o with
    | some i =>
      if isSuf c t then jsSubstring t (i + o.length) (t.length - c.length)
      else findDelimContent rest t
    | none => findDelimContent rest t

/-- Strip a leading `[R] ` / `[L] ` tag and report the direction it
encodes (`content.substring(4)` after a positive `startsWith` test). -/
def stripDir (content : List Char) : List Char × Option Nat :=
  if isPre "[R] ".data content then (content.drop 4, some 1)
  else if isPre "[L] ".data content then (content.drop 4, some 0)
  else (content, none)

/-- Source `extractContent`: trim, take the quoted interior (preferred) or
the delimited interior with a second quote strip, then decode the
direction tag and unescape. Both source paths share the tag/unescape
steps verbatim. -/
def extractContent (text : List Char) : List Char × Option Nat :=
  let trimmed := trimJs text
  if isPre "\"".data trimmed ∧ isSuf "\"".data trimmed then
    let content := jsSubstring trimmed 1 (trimmed.length - 1)
    let sd := stripDir content
    (unescapeContent sd.1, sd.2)
  else
    let content := findDelimContent delimPairs trimmed
    let content2 :=
      if content.length ≥ 2 ∧ isPre "\"".data content ∧ isSuf "\"".data content
      then jsSubstring content 1 (content.length - 1)
      else content
    let sd := stripDir content2
    (unescapeContent sd.1, sd.2)

/-- One stack entry of the parsing loop: the node under construction and
the indentation width it was pushed with. The width is an `Int` because
the defensive re-seed pushes the root with width `-1`. -/
structure PEntry : Type where
  node : NodeData
  indent : Int

/-- `if (!parent.children) parent.children = []; parent.children.push(node)`. -/
def appendChild (p c : NodeData) : NodeData :=
  match p with
  | .mk i t d e ch => .mk i t d e (some (ch.getD [] ++ [c]))

/-- The pop loop plus defensive re-seed of the parser, as a functional
zipper: popping an entry attaches its (now complete) node as the last
child of the entry below it; if the loop would empty the stack the bottom
(root) entry is kept and re-pushed with width `-1`. Line widths are
always `≥ 0`, so after a re-seed the loop condition is false, exactly as
in the source. -/
def collapseToF (i : Int) : Nat → List PEntry → List PEntry
  | _, [] => []
  | 0, s => s
  | _ + 1, [e] => if i ≤ e.indent then [⟨e.node, -1⟩] else [e]
  | f + 1, e :: g :: rest =>
    if i ≤ e.indent then
      collapseToF i f (⟨appendChild g.node e.node, g.indent⟩ :: rest)
    else e :: g :: rest

/-- The pop loop with the bound filled in: each pop removes one entry, so
the stack's length bounds the number of iterations. -/
def collapseTo (i : Int) (s : List PEntry) : List PEntry :=
  collapseToF i s.length s

/-- Above the length of the stack, the step bound does not matter. -/
theorem collapseToF_eq (i : Int) : ∀ (f : Nat) (s : List PEntry),
    s.length ≤ f → collapseToF i f s = collapseTo i s := by
  intro f
  induction f using Nat.strong_induction_on with
  | _ f ih =>
    intro s hs
    cases s with
    | nil => cases f <;> rfl
    | cons e s' =>
      cases f with
      | zero => simp at hs
      | succ f' =>
        cases s' with
        | nil =>
          rw [show collapseTo i [e] = collapseToF i 1 [e] from rfl]
          rw [collapseToF, collapseToF]
        | cons g rest =>
          rw [show collapseTo i (e :: g :: rest)
            = collapseToF i (rest.length + 2) (e :: g :: rest) from by
              rw [collapseTo, List.length_cons, List.length_cons]]
          rw [collapseToF, collapseToF]
          by_cases hc : i ≤ e.indent
          · rw [if_pos hc, if_pos hc]
            simp only [List.length_cons] at hs
            rw [ih f' (by omega) _ (by simp; omega),
              ih (rest.length + 1) (by omega) _ (by simp)]
          · rw [if_neg hc, if_neg hc]

theorem collapseTo_nil (i : Int) : collapseTo i [] = [] := rfl

theorem collapseTo_one (i : Int) (e : PEntry) :
    collapseTo i [e] = if i ≤ e.indent then [⟨e.node, -1⟩] else [e] := by
  rw [show collapseTo i [e] = collapseToF i 1 [e] from rfl, collapseToF]

theorem collapseTo_two (i : Int) (e g : PEntry) (rest : List PEntry) :
    collapseTo i (e :: g :: rest) =
      if i ≤ e.indent then
        collapseTo i (⟨appendChild g.node e.node, g.indent⟩ :: rest)
      else e :: g :: rest := by
  rw [show collapseTo i (e :: g :: rest)
    = collapseToF i (rest.length + 2) (e :: g :: rest) from by
      rw [collapseTo, List.length_cons, List.length_cons]]
  rw [collapseToF]
  by_cases hc : i ≤ e.indent
  · rw [if_pos hc, if_pos hc, collapseToF_eq _ _ _ (by simp)]
  · rw [if_neg hc, if_neg hc]

/-- Merge the whole remaining stack down into its bottom (root) entry;
this realizes the attachments the imperative code performed eagerly for
entries still on the stack when the loop ends. -/
def collapseAllF : Nat → List PEntry → NodeData
  | _, [] => .mk [] [] none none none
  | 0, _ => .mk [] [] none none none
  | _ + 1, [e] => e.node
  | f + 1, e :: g :: rest =>
    collapseAllF f (⟨appendChild g.node e.node, g.indent⟩ :: rest)

/-- The final merge with the bound filled in. -/
def collapseAll (s : List PEntry) : NodeData :=
  collapseAllF s.length s

/-- Above the length of the stack, the step bound does not matter. -/
theorem collapseAllF_eq : ∀ (f : Nat) (s : List PEntry),
    s.length ≤ f → collapseAllF f s = collapseAll s := by
  intro f
  induction f using Nat.strong_induction_on with
  | _ f ih =>
    intro s hs
    cases s with
    | nil => cases f <;> rfl
    | cons e s' =>
      cases f with
      | zero => simp at hs
      | succ f' =>
        cases s' with
        | nil =>
          rw [show collapseAll [e] = collapseAllF 1 [e] from rfl]
          rw [collapseAllF, collapseAllF]
        | cons g rest =>
          rw [show collapseAll (e :: g :: rest)
            = collapseAllF (rest.length + 2) (e :: g :: rest) from by
              rw [collapseAll, List.length_cons, List.length_cons]]
          rw [collapseAllF, collapseAllF]
          simp only [List.length_cons] at hs
          rw [ih f' (by omega) _ (by simp; omega),
            ih (rest.length + 1) (by omega) _ (by simp)]

theorem collapseAll_cons (e g : PEntry) (rest : List PEntry) :
    collapseAll (e :: g :: rest)
      = collapseAll (⟨appendChild g.node e.node, g.indent⟩ :: rest) := by
  rw [show collapseAll (e :: g :: rest)
    = collapseAllF (rest.length + 2) (e :: g :: rest) from by
      rw [collapseAll, List.length_cons, List.length_cons]]
  rw [collapseAllF, collapseAllF_eq _ _ (by simp)]

/-- Deterministic replacement for `Math.random().toString(36).substr(2, 9)`:
the k-th minted identifier. -/
def mintId (k : Nat) : List Char :=
  ("id" ++ toString k).data

/-- Parser loop state: the explicit stack and the id-minting counter. -/
structure PState : Type where
  stack : List PEntry
  counter : Nat

/-- Body of the parsing loop for one line (source lines 197-228): compute
the indent and content, build the node (`expanded: true`, fresh id,
optional direction), pop/re-seed, and push. -/
def stepLine (st : PState) (line : List Char) : PState :=
  let ind := getIndent line
  let ec := extractContent line
  let node : NodeData := .mk (mintId st.counter) ec.1 ec.2 (some true) (some [])
  ⟨⟨node, (ind : Int)⟩ :: collapseTo (ind : Int) st.stack, st.counter + 1⟩

/-- The placeholder tree returned when no content lines remain. -/
def placeholderData : MMData :=
  ⟨some (.mk "root".data "Root".data none (some true) (some []))⟩

/-- Stack-based parse of the root line and the remaining lines
(source lines 184-232), ending in `normalizeNodeData`. -/
def parseFromLines (rootLine : List Char) (rest : List (List Char)) : MMData :=
  let rootNode : NodeData :=
    .mk "root".data (extractContent rootLine).1 none (some true) (some [])
  let st0 : PState := ⟨[⟨rootNode, (getIndent rootLine : Int)⟩], 0⟩
  let stf := rest.foldl stepLine st0
  ⟨some (normalizeNodeData (collapseAll stf.stack))⟩

/-- Source `mermaidToData`: drop blank lines, skip a case-insensitive
`mindmap` header, fall back to the placeholder when nothing remains. -/
def mermaidToData (m : List Char) : MMData :=
  let lines := (splitNl m).filter (fun l => !(trimJs l).isEmpty)
  match lines with
  | [] => placeholderData
  | l0 :: rest =>
    if toLowerJs (trimJs l0) = "mindmap".data then
      match rest with
      | [] => placeholderData
      | r0 :: rs => parseFromLines r0 rs
    else parseFromLines l0 rest

/-! ### Expansion-state reconciliation (source lines 346-380)

The JS `Record<string, boolean>` is modelled as an association list to
which new entries are prepended; `List.lookup` therefore returns the most
recently written value, matching overwrite semantics. -/

/-- Key used for the topic fallback entries: `'topic:' + topic`. -/
def topicKey (t : List Char) : List Char :=
  "topic:".data ++ t

mutual

/-- Source `saveExpandedStates`: record `expanded` by id (when the id is
truthy and `expanded` is defined) and by `topic:`-prefixed topic (when
the topic is truthy, defaulting to `true`), then recurse into children. -/
def saveExpandedStates : NodeData → List (List Char × Bool) →
    List (List Char × Bool)
  | .mk i t _ e ch, acc =>
    let acc1 := if i ≠ [] ∧ e.isSome then (i, e.getD true) :: acc else acc
    let acc2 := if t ≠ [] then (topicKey t, e.getD true) :: acc1 else acc1
    saveChildrenOpt ch acc2

/-- Recurse into an optional child array (`if (node.children) ...`). -/
def saveChildrenOpt : Option (List NodeData) → List (List Char × Bool) →
    List (List Char × Bool)
  | none, acc => acc
  | some cs, acc => saveChildren cs acc

/-- Fold `saveExpandedStates` over children in order. -/
def saveChildren : List NodeData → List (List Char × Bool) →
    List (List Char × Bool)
  | [], acc => acc
  | c :: cs, acc => saveChildren cs (saveExpandedStates c acc)

end

mutual

/-- Source `restoreExpandedStates`: set `expanded` from the table by id
first, else by topic, else leave it; recurse into children. -/
def restoreExpandedStates (tbl : List (List Char × Bool)) :
    NodeData → NodeData
  | .mk i t d e ch =>
    let e' :=
      if i ≠ [] ∧ (tbl.lookup i).isSome then some ((tbl.lookup i).getD true)
      else if t ≠ [] ∧ (tbl.lookup (topicKey t)).isSome then
        some ((tbl.lookup (topicKey t)).getD true)
      else e
    .mk i t d e' (restoreChildrenOpt tbl ch)

/-- Recurse into an optional child array. -/
def restoreChildrenOpt (tbl : List (List Char × Bool)) :
    Option (List NodeData) → Option (List NodeData)
  | none => none
  | some cs => some (restoreChildren tbl cs)

/-- Map `restoreExpandedStates` over a list of children. -/
def restoreChildren (tbl : List (List Char × Bool)) :
    List NodeData → List NodeData
  | [] => []
  | c :: cs => restoreExpandedStates tbl c :: restoreChildren tbl cs

end

/-- Source `setMermaid` (data path only): save expansion from the current
tree, parse the new text, restore expansion onto it, and normalize —
this is the value handed to the widget's `refresh`. -/
def setMermaidModel (current : MMData) (m : List Char) : MMData :=
  let tbl :=
    match current.nodeData with
    | some n => saveExpandedStates n []
    | none => []
  let newData := mermaidToData m
  let restored : MMData :=
    match newData.nodeData with
    | some n => ⟨some (restoreExpandedStates tbl n)⟩
    | none => newData
  normalizeMindElixirData restored

/-! ### Instrumentation: does the defensive re-seed branch run?

The pop loop empties the stack (and so executes the re-seed) exactly when
every entry's width is `≥` the new line's width. -/

/-- Whether processing a line of width `i` against stack `S` executes the
defensive re-seed branch. -/
def reseedB (i : Int) (S : List PEntry) : Bool :=
  S.all (fun e => i ≤ e.indent)

/-- Fold over the remaining lines recording whether any step re-seeded. -/
def anyReseed (st : PState × Bool) (line : List Char) : PState × Bool :=
  (stepLine st.1 line, st.2 || reseedB (getIndent line : Int) st.1.stack)

/-- `mermaidToData` instrumented with the re-seed flag. -/
def mermaidToDataFlag (m : List Char) : MMData × Bool :=
  let lines := (splitNl m).filter (fun l => !(trimJs l).isEmpty)
  match lines with
  | [] => (placeholderData, false)
  | l0 :: rest =>
    if toLowerJs (trimJs l0) = "mindmap".data then
      match rest with
      | [] => (placeholderData, false)
      | r0 :: rs =>
        let rootNode : NodeData :=
          .mk "root".data (extractContent r0).1 none (some true) (some [])
        let st0 : PState := ⟨[⟨rootNode, (getIndent r0 : Int)⟩], 0⟩
        let stf := rs.foldl anyReseed (st0, false)
        (⟨some (normalizeNodeData (collapseAll stf.1.stack))⟩, stf.2)
    else
      let rootNode : NodeData :=
        .mk "root".data (extractContent l0).1 none (some true) (some [])
      let st0 : PState := ⟨[⟨rootNode, (getIndent l0 : Int)⟩], 0⟩
      let stf := rest.foldl anyReseed (st0, false)
      (⟨some (normalizeNodeData (collapseAll stf.1.stack))⟩, stf.2)

/-! ### Specification-side definitions used by the theorems -/

mutual

/-- Number of lines a node contributes to the serialization. -/
def sizeNode : NodeData → Nat
  | .mk _ _ _ _ ch => 1 + sizeChildrenOpt ch

/-- Number of lines of an optional child array. -/
def sizeChildrenOpt : Option (List NodeData) → Nat
  | none => 0
  | some cs => sizeChildren cs

/-- Number of lines of a list of children. -/
def sizeChildren : List NodeData → Nat
  | [] => 0
  | c :: cs => sizeNode c + sizeChildren cs

end

mutual

/-- The node the parser reconstructs from the serializer's line for a
non-root node at serializer depth `d`, when ids are minted starting at
`k`: topic and direction are whatever `extractContent` recovers from the
emitted line. -/
def imageNode (k d : Nat) : NodeData → NodeData
  | .mk _ topic dir _ ch =>
    .mk (mintId k) (extractContent (lineFor topic dir d false)).1
      (extractContent (lineFor topic dir d false)).2 (some true)
      (some (imageChildrenOpt (k + 1) (d + 1) ch))

/-- Image of an optional child array. -/
def imageChildrenOpt (k d : Nat) : Option (List NodeData) → List NodeData
  | none => []
  | some cs => imageChildren k d cs

/-- Image of a list of children; ids are minted in line (pre-)order. -/
def imageChildren (k d : Nat) : List NodeData → List NodeData
  | [] => []
  | c :: cs => imageNode k d c :: imageChildren (k + sizeNode c) d cs

end

/-- The tree the parser reconstructs from the serializer's output for a
whole tree: fixed root id, root topic as extracted from the root line
(direction discarded), children images at depth 2 with ids from 0. -/
def rootImage : NodeData → NodeData
  | .mk _ topic dir _ ch =>
    .mk "root".data (extractContent (lineFor topic dir 1 true)).1 none
      (some true) (some (imageChildrenOpt 0 2 ch))

mutual

/-- Topics of a tree in depth-first pre-order. -/
def topicsNode : NodeData → List (List Char)
  | .mk _ t _ _ ch => t :: topicsChildrenOpt ch

/-- Topics of an optional child array. -/
def topicsChildrenOpt : Option (List NodeData) → List (List Char)
  | none => []
  | some cs => topicsChildren cs

/-- Topics of a list of children. -/
def topicsChildren : List NodeData → List (List Char)
  | [] => []
  | c :: cs => topicsNode c ++ topicsChildren cs

end

mutual

/-- All nodes of a tree in depth-first pre-order (the traversal order of
`saveExpandedStates`). -/
def preorderNode : NodeData → List NodeData
  | .mk i t d e ch => .mk i t d e ch :: preorderChildrenOpt ch

/-- Pre-order nodes of an optional child array. -/
def preorderChildrenOpt : Option (List NodeData) → List NodeData
  | none => []
  | some cs => preorderChildren cs

/-- Pre-order nodes of a list of children. -/
def preorderChildren : List NodeData → List NodeData
  | [] => []
  | c :: cs => preorderNode c ++ preorderChildren cs

end

/-- Topics for which one serialize-then-parse cycle is the identity: no
newline (lines are split on `'\n'`), no occurrence of the escape token or
of a legacy HTML entity (each would be decoded), and no leading
direction tag (it would be stripped). -/
def cleanTopic (t : List Char) : Prop :=
  '\n' ∉ t ∧
  hasOcc t "#quot;".data = false ∧ hasOcc t "&quot;".data = false ∧
  hasOcc t "&lt;".data = false ∧ hasOcc t "&gt;".data = false ∧
  hasOcc t "&amp;".data = false ∧
  isPre "[R] ".data t = false ∧ isPre "[L] ".data t = false

instance (t : List Char) : Decidable (cleanTopic t) := by
  unfold cleanTopic; infer_instance

/-- Every topic of the tree contains no newline. -/
def NlFreeTree (n : NodeData) : Prop :=
  ∀ t ∈ topicsNode n, '\n' ∉ t

/-- Every topic of the tree is clean in the sense of `cleanTopic`. -/
def CleanTree (n : NodeData) : Prop :=
  ∀ t ∈ topicsNode n, cleanTopic t

instance (n : NodeData) : Decidable (NlFreeTree n) := by
  unfold NlFreeTree; infer_instance

instance (n : NodeData) : Decidable (CleanTree n) := by
  unfold CleanTree; infer_instance

/-- Merge a stack segment (top first) down onto a base node: the pops the
parsing loop performs when it removes the segment from above that base. -/
def squashNF : Nat → List PEntry → NodeData → NodeData
  | _, [], b => b
  | 0, _, b => b
  | _ + 1, [a], b => appendChild b a.node
  | f + 1, a :: a' :: r, b =>
    squashNF f (⟨appendChild a'.node a.node, a'.indent⟩ :: r) b

/-- The segment merge with the bound filled in. -/
def squashN (s : List PEntry) (b : NodeData) : NodeData :=
  squashNF s.length s b

/-- Above the length of the segment, the step bound does not matter. -/
theorem squashNF_eq : ∀ (f : Nat) (s : List PEntry) (b : NodeData),
    s.length ≤ f → squashNF f s b = squashN s b := by
  intro f
  induction f using Nat.strong_induction_on with
  | _ f ih =>
    intro s b hs
    cases s with
    | nil => cases f <;> rfl
    | cons a s' =>
      cases f with
      | zero => simp at hs
      | succ f' =>
        cases s' with
        | nil =>
          rw [show squashN [a] b = squashNF 1 [a] b from rfl]
          rw [squashNF, squashNF]
        | cons a' r =>
          rw [show squashN (a :: a' :: r) b
            = squashNF (r.length + 2) (a :: a' :: r) b from by
              rw [squashN, List.length_cons, List.length_cons]]
          rw [squashNF, squashNF]
          simp only [List.length_cons] at hs
          rw [ih f' (by omega) _ _ (by simp; omega),
            ih (r.length + 1) (by omega) _ _ (by simp)]

theorem squashN_nil (b : NodeData) : squashN [] b = b := rfl

theorem squashN_one (a : PEntry) (b : NodeData) :
    squashN [a] b = appendChild b a.node := by
  rw [show squashN [a] b = squashNF 1 [a] b from rfl, squashNF]

theorem squashN_cons (a a' : PEntry) (r : List PEntry) (b : NodeData) :
    squashN (a :: a' :: r) b
      = squashN (⟨appendChild a'.node a.node, a'.indent⟩ :: r) b := by
  rw [show squashN (a :: a' :: r) b = squashNF (r.length + 2) (a :: a' :: r) b
    from by rw [squashN, List.length_cons, List.length_cons]]
  rw [squashNF, squashNF_eq _ _ _ (by simp)]

/-- Append a list of complete children to a node, one merge at a time. -/
def appendKids (b : NodeData) (ks : List NodeData) : NodeData :=
  ks.foldl appendChild b

/-! ### String-primitive lemmas -/

theorem isPre_iff (p s : List Char) : isPre p s = true ↔ p <+: s := by
  induction p generalizing s with
  | nil => simp [isPre]
  | cons a as ih =>
    cases s with
    | nil => simp [isPre]
    | cons b bs =>
      by_cases hab : a = b
      · subst hab
        simp [isPre, List.cons_prefix_cons, ih]
      · simp [isPre, hab, List.cons_prefix_cons]

theorem isSuf_iff (p s : List Char) : isSuf p s = true ↔ p <:+ s := by
  rw [isSuf, isPre_iff, List.reverse_prefix]

theorem isPre_append (p s : List Char) : isPre p (p ++ s) = true := by
  rw [isPre_iff]; exact ⟨s, rfl⟩

theorem isSuf_append (p s : List Char) : isSuf p (s ++ p) = true := by
  rw [isSuf_iff]; exact ⟨s, rfl⟩

theorem dropWhile_append_all (P : Char → Bool) (pad s : List Char)
    (h : ∀ c ∈ pad, P c = true) :
    (pad ++ s).dropWhile P = s.dropWhile P := by
  induction pad with
  | nil => rfl
  | cons x xs ih =>
    have hx : P x = true := h x (by simp)
    simp only [List.cons_append, List.dropWhile_cons, hx, if_true]
    exact ih (fun c hc => h c (by simp [hc]))

theorem takeWhile_append_all (P : Char → Bool) (pad s : List Char)
    (h : ∀ c ∈ pad, P c = true) :
    (pad ++ s).takeWhile P = pad ++ s.takeWhile P := by
  induction pad with
  | nil => rfl
  | cons x xs ih =>
    have hx : P x = true := h x (by simp)
    simp only [List.cons_append, List.takeWhile_cons, hx, if_true]
    rw [ih (fun c hc => h c (by simp [hc]))]

theorem dropWhile_cons_neg (P : Char → Bool) (c : Char) (s : List Char)
    (h : P c = false) : (c :: s).dropWhile P = c :: s := by
  simp [List.dropWhile_cons, h]

/-- Trimming a line that is an all-whitespace pad followed by content with
non-whitespace first and last characters yields exactly the content. -/
theorem trim_padded (pad : List Char) (c : Char) (mid : List Char) (d : Char)
    (hpad : ∀ x ∈ pad, isJsSpace x = true)
    (hc : isJsSpace c = false) (hd : isJsSpace d = false) :
    trimJs (pad ++ (c :: (mid ++ [d]))) = c :: (mid ++ [d]) := by
  unfold trimJs
  rw [dropWhile_append_all _ _ _ hpad, dropWhile_cons_neg _ _ _ hc]
  have h2 : (c :: (mid ++ [d])).reverse = d :: (mid.reverse ++ [c]) := by simp
  rw [h2, dropWhile_cons_neg _ _ _ hd]
  simp

theorem indentStr_all_space (d : Nat) : ∀ x ∈ indentStr d, isJsSpace x = true := by
  intro x hx
  rw [indentStr, List.mem_replicate] at hx
  rw [hx.2]; rfl

theorem getIndent_padded (d : Nat) (c : Char) (rest : List Char)
    (hc : isJsSpace c = false) :
    getIndent (indentStr d ++ c :: rest) = 2 * d := by
  unfold getIndent
  rw [takeWhile_append_all _ _ _ (indentStr_all_space d)]
  simp [List.takeWhile_cons, hc, indentStr]

theorem splitNl_no_nl (l : List Char) (h : '\n' ∉ l) : splitNl l = [l] := by
  induction l with
  | nil => rfl
  | cons c cs ih =>
    have hc : c ≠ '\n' := fun hh => h (by simp [hh])
    have := ih (fun hh => h (by simp [hh]))
    simp only [splitNl, this, hc, if_false]

theorem splitNl_append_nl (l s : List Char) (h : '\n' ∉ l) :
    splitNl (l ++ '\n' :: s) = l :: splitNl s := by
  induction l with
  | nil =>
    simp only [List.nil_append, splitNl]
    cases hs : splitNl s with
    | nil => cases s <;> simp_all [splitNl]
    | cons a b => simp
  | cons c cs ih =>
    have hc : c ≠ '\n' := fun hh => h (by simp [hh])
    have hihs := ih (fun hh => h (by simp [hh]))
    simp only [List.cons_append, splitNl, List.append_eq, hihs, hc, if_false]

theorem splitNl_joinNl (ls : List (List Char)) (hne : ls ≠ [])
    (h : ∀ l ∈ ls, '\n' ∉ l) : splitNl (joinNl ls) = ls := by
  induction ls with
  | nil => exact absurd rfl hne
  | cons l rest ih =>
    cases rest with
    | nil => exact splitNl_no_nl l (h l (by simp))
    | cons l' rest' =>
      rw [joinNl, splitNl_append_nl _ _ (h l (by simp))]
      rw [ih (by simp) (fun x hx => h x (by simp [hx]))]

theorem hasOcc_nil (p : List Char) (hp : p ≠ []) : hasOcc [] p = false := by
  simp [hasOcc, indexOfJs, hp]

theorem hasOcc_cons (c : Char) (s p : List Char) :
    hasOcc (c :: s) p = (isPre p (c :: s) || hasOcc s p) := by
  by_cases h : isPre p (c :: s) = true
  · simp [hasOcc, indexOfJs, h]
  · simp only [Bool.not_eq_true] at h
    simp [hasOcc, indexOfJs, h]

theorem hasOcc_tail (c : Char) (s p : List Char)
    (h : hasOcc (c :: s) p = false) : hasOcc s p = false := by
  rw [hasOcc_cons] at h
  exact (Bool.or_eq_false_iff.mp h).2

theorem not_isPre_of_hasOcc_false (s p : List Char) (hp : p ≠ [])
    (h : hasOcc s p = false) : isPre p s = false := by
  cases s with
  | nil => cases p with
    | nil => exact absurd rfl hp
    | cons a as => rfl
  | cons c cs =>
    rw [hasOcc_cons] at h
    exact (Bool.or_eq_false_iff.mp h).1

theorem replaceAll_cons_pos (p r : List Char) (c : Char) (t : List Char)
    (hp : p ≠ []) (h : isPre p (c :: t) = true) :
    replaceAll p r (c :: t) = r ++ replaceAll p r ((c :: t).drop p.length) := by
  rw [show replaceAll p r (c :: t) = replaceAllF p r (t.length + 1) (c :: t)
    from by rw [replaceAll, List.length_cons]]
  rw [replaceAllF, if_pos ⟨hp, h⟩]
  have hp1 : 1 ≤ p.length := by
    cases hq : p with
    | nil => exact absurd hq hp
    | cons x xs => simp
  rw [replaceAllF_eq p r t.length _ (by
    simp only [List.length_drop, List.length_cons]; omega)]

theorem replaceAll_cons_neg (p r : List Char) (c : Char) (t : List Char)
    (h : isPre p (c :: t) = false) :
    replaceAll p r (c :: t) = c :: replaceAll p r t := by
  rw [show replaceAll p r (c :: t) = replaceAllF p r (t.length + 1) (c :: t)
    from by rw [replaceAll, List.length_cons]]
  rw [replaceAllF, if_neg (by simp [h])]
  rw [replaceAllF_eq p r t.length t (by omega)]

theorem replaceAll_id (p r s : List Char) (hp : p ≠ [])
    (h : hasOcc s p = false) : replaceAll p r s = s := by
  induction s with
  | nil => rfl
  | cons c cs ih =>
    rw [replaceAll_cons_neg _ _ _ _ (not_isPre_of_hasOcc_false _ _ hp h)]
    rw [ih (hasOcc_tail _ _ _ h)]

theorem replaceAll_append_pat (p r x : List Char) (hp : p ≠ []) :
    replaceAll p r (p ++ x) = r ++ replaceAll p r x := by
  cases p with
  | nil => exact absurd rfl hp
  | cons p0 ps =>
    rw [List.cons_append, replaceAll_cons_pos _ _ _ _ hp]
    · rw [← List.cons_append, List.drop_left]
    · rw [← List.cons_append]
      exact isPre_append _ _

/-! ### Escape / unescape lemmas -/

theorem escapeTopic_nil : escapeTopic [] = [] := rfl

theorem escapeTopic_cons (c : Char) (t : List Char) :
    escapeTopic (c :: t) =
      if c = '"' then "#quot;".data ++ escapeTopic t else c :: escapeTopic t := by
  unfold escapeTopic
  by_cases hc : c = '"'
  · subst hc
    rw [replaceAll_cons_pos _ _ _ _ (by decide) (by simp [isPre])]
    simp [if_true]
  · rw [replaceAll_cons_neg _ _ _ _
      (by simp only [isPre]; rw [if_neg (fun h => hc h.symm)])]
    simp [hc]

theorem mem_escapeTopic (t : List Char) (x : Char) (hx : x ∈ escapeTopic t) :
    (x ∈ t ∧ x ≠ '"') ∨ x ∈ "#quot;".data := by
  induction t with
  | nil => rw [escapeTopic_nil] at hx; cases hx
  | cons c cs ih =>
    rw [escapeTopic_cons] at hx
    by_cases hc : c = '"'
    · rw [if_pos hc, List.mem_append] at hx
      rcases hx with hx | hx
      · exact Or.inr hx
      · rcases ih hx with ⟨h1, h2⟩ | h
        · exact Or.inl ⟨by simp [h1], h2⟩
        · exact Or.inr h
    · rw [if_neg hc] at hx
      rcases List.mem_cons.mp hx with rfl | hx
      · exact Or.inl ⟨by simp, hc⟩
      · rcases ih hx with ⟨h1, h2⟩ | h
        · exact Or.inl ⟨by simp [h1], h2⟩
        · exact Or.inr h

theorem quote_not_mem_escape (t : List Char) : '"' ∉ escapeTopic t := by
  intro hx
  rcases mem_escapeTopic t _ hx with ⟨_, h⟩ | h
  · exact h rfl
  · simp [String.data] at h

theorem nl_not_mem_escape (t : List Char) (h : '\n' ∉ t) :
    '\n' ∉ escapeTopic t := by
  intro hx
  rcases mem_escapeTopic t _ hx with ⟨h1, _⟩ | hm
  · exact h h1
  · simp [String.data] at hm

/-- Transfer of a prefix through escaping: a pattern containing neither a
double quote nor a hash is a prefix of `escapeTopic t` only if it is a
prefix of `t`. -/
theorem isPre_escape_transfer (t : List Char) : ∀ q : List Char, q ≠ [] →
    '"' ∉ q → '#' ∉ q → isPre q (escapeTopic t) = true → isPre q t = true := by
  induction t with
  | nil =>
    intro q hq _ _ hpre
    rw [escapeTopic_nil] at hpre
    cases q with
    | nil => exact absurd rfl hq
    | cons a as => exact absurd hpre (by simp [isPre])
  | cons c cs ih =>
    intro q hq hq1 hq2 hpre
    rw [escapeTopic_cons] at hpre
    by_cases hc : c = '"'
    · rw [if_pos hc] at hpre
      cases q with
      | nil => exact absurd rfl hq
      | cons a as =>
        have : a = '#' := by
          have : isPre (a :: as) ('#' :: ("quot;".data ++ escapeTopic cs)) = true := by
            simpa using hpre
          rw [isPre] at this
          by_cases hah : a = '#'
          · exact hah
          · rw [if_neg hah] at this; cases this
        exact absurd (this ▸ List.mem_cons_self a as) hq2
    · rw [if_neg hc] at hpre
      cases q with
      | nil => exact absurd rfl hq
      | cons a as =>
        rw [isPre] at hpre
        by_cases hac : a = c
        · subst hac
          rw [if_pos rfl] at hpre
          cases as with
          | nil => simp [isPre]
          | cons b bs =>
            have has := ih (b :: bs) (by simp)
              (fun hm => hq1 (by simp [hm])) (fun hm => hq2 (by simp [hm])) hpre
            rw [isPre, if_pos rfl]
            exact has
        · rw [if_neg hac] at hpre; cases hpre

theorem replace_hash_escape (t : List Char)
    (h : hasOcc t "#quot;".data = false) :
    replaceAll "#quot;".data "\"".data (escapeTopic t) = t := by
  induction t with
  | nil => rw [escapeTopic_nil, replaceAll_nil]
  | cons c cs ih =>
    rw [escapeTopic_cons]
    by_cases hc : c = '"'
    · rw [if_pos hc, replaceAll_append_pat _ _ _ (by decide)]
      rw [ih (hasOcc_tail _ _ _ h), hc]
      rfl
    · rw [if_neg hc]
      have hnotpre : isPre "#quot;".data (c :: escapeTopic cs) = false := by
        by_contra hcon
        rw [Bool.not_eq_false] at hcon
        have hch : c = '#' := by
          rw [show "#quot;".data = '#' :: "quot;".data from rfl, isPre] at hcon
          by_cases hh : '#' = c
          · exact hh.symm
          · rw [if_neg hh] at hcon; cases hcon
        have htail : isPre "quot;".data (escapeTopic cs) = true := by
          rw [show "#quot;".data = '#' :: "quot;".data from rfl, isPre,
            if_pos hch.symm] at hcon
          exact hcon
        have := isPre_escape_transfer cs "quot;".data (by decide) (by decide)
          (by decide) htail
        have hoc : isPre "#quot;".data (c :: cs) = true := by
          rw [show "#quot;".data = '#' :: "quot;".data from rfl, isPre,
            if_pos hch.symm]
          exact this
        have := not_isPre_of_hasOcc_false (c :: cs) "#quot;".data (by decide) h
        rw [this] at hoc
        cases hoc
      rw [replaceAll_cons_neg _ _ _ _ hnotpre, ih (hasOcc_tail _ _ _ h)]

/-- On clean topics, the parser's unescape chain inverts the serializer's
escaping exactly. -/
theorem unescape_escape (t : List Char) (h : cleanTopic t) :
    unescapeContent (escapeTopic t) = t := by
  obtain ⟨-, h1, h2, h3, h4, h5, -, -⟩ := h
  unfold unescapeContent
  rw [replace_hash_escape t h1]
  rw [replaceAll_id _ _ _ (by decide) h2]
  rw [replaceAll_id _ _ _ (by decide) h3]
  rw [replaceAll_id _ _ _ (by decide) h4]
  rw [replaceAll_id _ _ _ (by decide) h5]

/-! ### extractContent on serializer-shaped lines -/

/-- Expected direction after a serialize-parse cycle: kept only for the
values `1`/`0` at serializer depth 2 (tree depth 1), dropped elsewhere. -/
def dirFilter (d : Nat) (dir : Option Nat) : Option Nat :=
  if d = 2 then
    if dir = some 1 then some 1
    else if dir = some 0 then some 0
    else none
  else none

theorem jsSubstring_eval (s : List Char) (a b : Nat) (ha : a ≤ s.length)
    (hb : b ≤ s.length) (hab : a ≤ b) :
    jsSubstring s a b = (s.drop a).take (b - a) := by
  unfold jsSubstring
  simp only [Nat.min_eq_left ha, Nat.min_eq_left hb, Nat.min_eq_left hab,
    Nat.max_eq_right hab]

theorem jsSubstring_inner (a b : Char) (mid : List Char) :
    jsSubstring (a :: (mid ++ [b])) 1 ((a :: (mid ++ [b])).length - 1) = mid := by
  have hlen : (a :: (mid ++ [b])).length = mid.length + 2 := by simp
  rw [jsSubstring_eval _ _ _ (by simp) (by omega) (by omega)]
  rw [hlen]
  simp only [List.drop_one, List.tail_cons]
  have h5 : mid.length + 2 - 1 - 1 = mid.length := by omega
  rw [h5]
  exact List.take_left' rfl

theorem jsSubstring_mid (pre y post : List Char) :
    jsSubstring (pre ++ (y ++ post)) pre.length
      ((pre ++ (y ++ post)).length - post.length) = y := by
  have hlen : (pre ++ (y ++ post)).length = pre.length + y.length + post.length := by
    simp; omega
  rw [jsSubstring_eval _ _ _ (by simp) (by omega) (by rw [hlen]; omega)]
  rw [List.drop_left, hlen]
  have h5 : pre.length + y.length + post.length - post.length - pre.length
      = y.length := by omega
  rw [h5]
  exact List.take_left' rfl

theorem stripDir_tagR (x : List Char) :
    stripDir ("[R] ".data ++ x) = (x, some 1) := by
  unfold stripDir
  rw [if_pos (isPre_append _ _)]
  rw [show (4 : Nat) = "[R] ".data.length from rfl, List.drop_left]

theorem stripDir_tagL (x : List Char) :
    stripDir ("[L] ".data ++ x) = (x, some 0) := by
  have hRL : isPre "[R] ".data ("[L] ".data ++ x) = false := rfl
  unfold stripDir
  rw [if_neg (fun hcon => by rw [hRL] at hcon; cases hcon)]
  rw [if_pos (isPre_append _ _)]
  rw [show (4 : Nat) = "[L] ".data.length from rfl, List.drop_left]

theorem stripDir_none (x : List Char) (h1 : isPre "[R] ".data x = false)
    (h2 : isPre "[L] ".data x = false) : stripDir x = (x, none) := by
  unfold stripDir
  rw [if_neg (by rw [h1]; exact Bool.false_ne_true),
    if_neg (by rw [h2]; exact Bool.false_ne_true)]

/-- Extraction from an indented, quoted line: strip the quotes, decode
the tag, unescape. -/
theorem extract_quoted (d : Nat) (mid : List Char) :
    extractContent (indentStr d ++ ('"' :: (mid ++ ['"']))) =
      (unescapeContent (stripDir mid).1, (stripDir mid).2) := by
  unfold extractContent
  rw [trim_padded _ _ _ _ (indentStr_all_space d) (by rfl) (by rfl)]
  rw [if_pos ?hcond]
  case hcond =>
    constructor
    · rw [show ∀ z : List Char, isPre "\"".data ('"' :: z) = true from fun z => rfl]
    · rw [show '"' :: (mid ++ ['"']) = ('"' :: mid) ++ ['"'] by simp]
      rw [show ("\"".data : List Char) = ['"'] from rfl]
      exact isSuf_append _ _
  rw [jsSubstring_inner]

/-- The serializer's non-root line, rearranged to the quoted-line shape. -/
theorem lineFor_nonroot_shape (t : List Char) (dir : Option Nat) (d : Nat) :
    lineFor t dir d false =
      indentStr d ++ ('"' :: ((dirTag d dir ++ escapeTopic t) ++ ['"'])) := by
  unfold lineFor
  rw [if_neg (by simp)]
  simp [List.append_assoc]

/-- Quotes never occur in an emitted direction tag. -/
theorem quote_not_mem_dirTag (d : Nat) (dir : Option Nat) :
    '"' ∉ dirTag d dir := by
  unfold dirTag
  by_cases h2 : d = 2
  · rw [if_pos h2]
    by_cases hr : dir = some 1
    · rw [if_pos hr]; decide
    · rw [if_neg hr]
      by_cases hl : dir = some 0
      · rw [if_pos hl]; decide
      · rw [if_neg hl]; simp
  · rw [if_neg h2]; simp

/-- What `extractContent` recovers from any non-root serializer line. -/
theorem extract_nonroot (t : List Char) (dir : Option Nat) (d : Nat) :
    extractContent (lineFor t dir d false) =
      (unescapeContent (stripDir (dirTag d dir ++ escapeTopic t)).1,
       (stripDir (dirTag d dir ++ escapeTopic t)).2) := by
  rw [lineFor_nonroot_shape]
  exact extract_quoted d _

theorem isPre_R_escape_false (t : List Char)
    (h : isPre "[R] ".data t = false) :
    isPre "[R] ".data (escapeTopic t) = false := by
  by_contra hcon
  rw [Bool.not_eq_false] at hcon
  have := isPre_escape_transfer t "[R] ".data (by decide) (by decide)
    (by decide) hcon
  rw [h] at this
  cases this

theorem isPre_L_escape_false (t : List Char)
    (h : isPre "[L] ".data t = false) :
    isPre "[L] ".data (escapeTopic t) = false := by
  by_contra hcon
  rw [Bool.not_eq_false] at hcon
  have := isPre_escape_transfer t "[L] ".data (by decide) (by decide)
    (by decide) hcon
  rw [h] at this
  cases this

/-- On clean topics, parsing the serializer's non-root line recovers the
topic exactly and the direction passed through `dirFilter`. -/
theorem extract_nonroot_clean (t : List Char) (dir : Option Nat) (d : Nat)
    (h : cleanTopic t) :
    extractContent (lineFor t dir d false) = (t, dirFilter d dir) := by
  rw [extract_nonroot]
  obtain ⟨-, -, -, -, -, -, h7, h8⟩ := id h
  unfold dirFilter
  by_cases hd : d = 2
  · subst hd
    rw [if_pos rfl]
    by_cases h1 : dir = some 1
    · rw [if_pos h1, show dirTag 2 dir = "[R] ".data by unfold dirTag; simp [h1]]
      rw [stripDir_tagR, unescape_escape t h]
    · rw [if_neg h1]
      by_cases h0 : dir = some 0
      · rw [if_pos h0,
          show dirTag 2 dir = "[L] ".data by unfold dirTag; simp [h1, h0]]
        rw [stripDir_tagL, unescape_escape t h]
      · rw [if_neg h0, show dirTag 2 dir = [] by unfold dirTag; simp [h1, h0]]
        rw [List.nil_append,
          stripDir_none _ (isPre_R_escape_false t h7) (isPre_L_escape_false t h8),
          unescape_escape t h]
  · rw [if_neg hd, show dirTag d dir = [] by unfold dirTag; simp [hd]]
    rw [List.nil_append,
      stripDir_none _ (isPre_R_escape_false t h7) (isPre_L_escape_false t h8),
      unescape_escape t h]

/-- A right-tagged depth-1 line always reparses with direction `1`,
whatever the topic. -/
theorem extract_tagR_full (t : List Char) :
    extractContent (lineFor t (some 1) 2 false) =
      (unescapeContent (escapeTopic t), some 1) := by
  rw [extract_nonroot, show dirTag 2 (some 1) = "[R] ".data from rfl,
    stripDir_tagR]

/-- A left-tagged depth-1 line always reparses with direction `0`. -/
theorem extract_tagL_full (t : List Char) :
    extractContent (lineFor t (some 0) 2 false) =
      (unescapeContent (escapeTopic t), some 0) := by
  rw [extract_nonroot, show dirTag 2 (some 0) = "[L] ".data from rfl,
    stripDir_tagL]

/-- The serializer's root line, rearranged for the trim lemma. -/
theorem lineFor_root_shape (t : List Char) (dir : Option Nat) (d : Nat) :
    lineFor t dir d true =
      indentStr d ++
        ('r' :: (("oot((\"".data ++ (escapeTopic t ++ ['"', ')'])) ++ [')'])) := by
  unfold lineFor
  rw [if_pos rfl]
  simp [List.append_assoc]

/-- What `extractContent` recovers from any root line. -/
theorem extract_root (t : List Char) (dir : Option Nat) (d : Nat) :
    extractContent (lineFor t dir d true) =
      (unescapeContent (stripDir (escapeTopic t)).1,
       (stripDir (escapeTopic t)).2) := by
  rw [lineFor_root_shape]
  unfold extractContent
  rw [trim_padded _ _ _ _ (indentStr_all_space d) (by rfl) (by rfl)]
  have hshape : 'r' :: (("oot((\"".data ++ (escapeTopic t ++ ['"', ')'])) ++ [')'])
      = "root((\"".data ++ (escapeTopic t ++ "\"))".data) := by
    simp [List.append_assoc]
  rw [hshape]
  rw [if_neg ?hnq]
  case hnq =>
    intro hcon
    have h1 : isPre "\"".data ("root((\"".data ++ (escapeTopic t ++ "\"))".data))
        = false := rfl
    rw [h1] at hcon
    exact Bool.false_ne_true hcon.1
  have hidx : indexOfJs ("root((\"".data ++ (escapeTopic t ++ "\"))".data))
      "((".data = some 4 := rfl
  have hsuf : isSuf "))".data ("root((\"".data ++ (escapeTopic t ++ "\"))".data))
      = true := by
    have hs2 : "root((\"".data ++ (escapeTopic t ++ "\"))".data)
        = ("root((\"".data ++ (escapeTopic t ++ ['"'])) ++ "))".data := by
      simp [List.append_assoc]
    rw [hs2]
    exact isSuf_append _ _
  have hmid : jsSubstring ("root((\"".data ++ (escapeTopic t ++ "\"))".data))
      (4 + "((".data.length)
      (("root((\"".data ++ (escapeTopic t ++ "\"))".data)).length
        - "))".data.length)
      = '"' :: (escapeTopic t ++ ['"']) := by
    have hs3 : "root((\"".data ++ (escapeTopic t ++ "\"))".data)
        = "root((".data ++ (('"' :: (escapeTopic t ++ ['"'])) ++ "))".data) := by
      simp [List.append_assoc]
    rw [hs3, show (4 + "((".data.length : Nat) = "root((".data.length from rfl]
    exact jsSubstring_mid _ _ _
  rw [show delimPairs = ("((".data, "))".data) ::
    [("[[".data, "]]".data), ("\x7b\x7b".data, "\x7d\x7d".data),
     ("[".data, "]".data), ("(".data, ")".data),
     ("\x7b".data, "\x7d".data)] from rfl]
  rw [findDelimContent, hidx]
  simp only [hsuf, if_true, hmid]
  rw [if_pos ?hq2]
  case hq2 =>
    refine ⟨by simp, ?_, ?_⟩
    · rw [show ∀ z : List Char, isPre "\"".data ('"' :: z) = true from
        fun z => rfl]
    · rw [show ('"' :: (escapeTopic t ++ ['"']))
        = ('"' :: escapeTopic t) ++ ['"'] by simp]
      exact isSuf_append _ _
  rw [jsSubstring_inner]

/-- On clean topics, the root line round-trips its topic and carries no
direction. -/
theorem extract_root_clean (t : List Char) (dir : Option Nat) (d : Nat)
    (h : cleanTopic t) :
    extractContent (lineFor t dir d true) = (t, none) := by
  rw [extract_root]
  obtain ⟨-, -, -, -, -, -, h7, h8⟩ := id h
  rw [stripDir_none _ (isPre_R_escape_false t h7) (isPre_L_escape_false t h8),
    unescape_escape t h]

theorem getIndent_lineFor_nonroot (t : List Char) (dir : Option Nat) (d : Nat) :
    getIndent (lineFor t dir d false) = 2 * d := by
  rw [lineFor_nonroot_shape]
  exact getIndent_padded d '"' _ (by rfl)

theorem getIndent_lineFor_root (t : List Char) (dir : Option Nat) (d : Nat) :
    getIndent (lineFor t dir d true) = 2 * d := by
  rw [lineFor_root_shape]
  exact getIndent_padded d 'r' _ (by rfl)

theorem trim_lineFor_nonroot_ne (t : List Char) (dir : Option Nat) (d : Nat) :
    trimJs (lineFor t dir d false) ≠ [] := by
  rw [lineFor_nonroot_shape,
    trim_padded _ _ _ _ (indentStr_all_space d) (by rfl) (by rfl)]
  simp

theorem trim_lineFor_root_ne (t : List Char) (dir : Option Nat) (d : Nat) :
    trimJs (lineFor t dir d true) ≠ [] := by
  rw [lineFor_root_shape,
    trim_padded _ _ _ _ (indentStr_all_space d) (by rfl) (by rfl)]
  simp

theorem nl_not_mem_dirTag (d : Nat) (dir : Option Nat) : '\n' ∉ dirTag d dir := by
  unfold dirTag
  by_cases h2 : d = 2
  · rw [if_pos h2]
    by_cases hr : dir = some 1
    · rw [if_pos hr]; decide
    · rw [if_neg hr]
      by_cases hl : dir = some 0
      · rw [if_pos hl]; decide
      · rw [if_neg hl]; simp
  · rw [if_neg h2]; simp

theorem nl_not_mem_indentStr (d : Nat) : '\n' ∉ indentStr d := by
  intro hx
  rw [indentStr, List.mem_replicate] at hx
  cases hx.2

theorem nl_not_mem_lineFor (t : List Char) (dir : Option Nat) (d : Nat)
    (b : Bool) (h : '\n' ∉ t) : '\n' ∉ lineFor t dir d b := by
  unfold lineFor
  cases b with
  | true =>
    rw [if_pos rfl]
    intro hx
    rcases List.mem_append.mp hx with hx | hx
    · rcases List.mem_append.mp hx with hx | hx
      · rcases List.mem_append.mp hx with hx | hx
        · exact nl_not_mem_indentStr d hx
        · simp [String.data] at hx
      · exact nl_not_mem_escape t h hx
    · simp [String.data] at hx
  | false =>
    rw [if_neg (by simp)]
    intro hx
    rcases List.mem_append.mp hx with hx | hx
    · rcases List.mem_append.mp hx with hx | hx
      · rcases List.mem_append.mp hx with hx | hx
        · rcases List.mem_append.mp hx with hx | hx
          · exact nl_not_mem_indentStr d hx
          · simp [String.data] at hx
        · exact nl_not_mem_dirTag d dir hx
      · exact nl_not_mem_escape t h hx
    · simp [String.data] at hx

/-! ### Stack-machine lemmas -/

theorem squashN_eq_foldl (x : PEntry) (r : List PEntry) (b : NodeData) :
    squashN (x :: r) b =
      appendChild b (r.foldl (fun acc e => appendChild e.node acc) x.node) := by
  induction r generalizing x with
  | nil => rw [squashN_one]; rfl
  | cons y r' ih =>
    rw [squashN_cons, ih]
    rfl

theorem squashN_snoc (sp : List PEntry) (a : PEntry) (b : NodeData) :
    squashN (sp ++ [a]) b = appendChild b (squashN sp a.node) := by
  cases sp with
  | nil => rw [List.nil_append, squashN_one, squashN_nil]
  | cons x r =>
    rw [List.cons_append, squashN_eq_foldl, List.foldl_append]
    rw [squashN_eq_foldl]
    rfl

theorem collapseTo_nopop (i : Int) (e : PEntry) (S : List PEntry)
    (he : ¬ i ≤ e.indent) : collapseTo i (e :: S) = e :: S := by
  cases S with
  | nil => rw [collapseTo_one, if_neg he]
  | cons f rest => rw [collapseTo_two, if_neg he]

theorem collapseTo_spine_len (i : Int) (e : PEntry) (S : List PEntry)
    (he : ¬ i ≤ e.indent) : ∀ (n : Nat) (sp : List PEntry), sp.length = n →
    (∀ x ∈ sp, i ≤ x.indent) →
    collapseTo i (sp ++ e :: S) = ⟨squashN sp e.node, e.indent⟩ :: S := by
  intro n
  induction n with
  | zero =>
    intro sp hlen _
    rw [List.length_eq_zero] at hlen
    subst hlen
    rw [List.nil_append, collapseTo_nopop i e S he, squashN_nil]
  | succ m ih =>
    intro sp hlen hsp
    cases sp with
    | nil => simp at hlen
    | cons x sp' =>
      cases sp' with
      | nil =>
        rw [List.singleton_append, collapseTo_two, if_pos (hsp x (by simp))]
        rw [collapseTo_nopop i _ S (by simpa using he), squashN_one]
      | cons y r =>
        rw [List.cons_append, List.cons_append, collapseTo_two,
          if_pos (hsp x (by simp))]
        rw [← List.cons_append]
        have hres := ih (⟨appendChild y.node x.node, y.indent⟩ :: r)
          (by simp at hlen ⊢; omega)
          (by
            intro z hz
            rcases List.mem_cons.mp hz with rfl | hz
            · exact hsp y (by simp)
            · exact hsp z (by simp [hz]))
        rw [hres, squashN_cons]

theorem collapseTo_spine (i : Int) (sp : List PEntry) (e : PEntry)
    (S : List PEntry) (hsp : ∀ x ∈ sp, i ≤ x.indent) (he : ¬ i ≤ e.indent) :
    collapseTo i (sp ++ e :: S) = ⟨squashN sp e.node, e.indent⟩ :: S :=
  collapseTo_spine_len i e S he sp.length sp rfl hsp

theorem collapseAll_spine_len (e : PEntry) (S : List PEntry) :
    ∀ (n : Nat) (sp : List PEntry), sp.length = n →
    collapseAll (sp ++ e :: S) =
      collapseAll (⟨squashN sp e.node, e.indent⟩ :: S) := by
  intro n
  induction n with
  | zero =>
    intro sp hlen
    rw [List.length_eq_zero] at hlen
    subst hlen
    rw [List.nil_append, squashN_nil]
  | succ m ih =>
    intro sp hlen
    cases sp with
    | nil => simp at hlen
    | cons x sp' =>
      cases sp' with
      | nil =>
        rw [List.singleton_append, collapseAll_cons, squashN_one]
      | cons y r =>
        rw [List.cons_append, List.cons_append, collapseAll_cons,
          ← List.cons_append]
        rw [ih (⟨appendChild y.node x.node, y.indent⟩ :: r)
          (by simp at hlen ⊢; omega), squashN_cons]

theorem collapseAll_spine (sp : List PEntry) (e : PEntry) (S : List PEntry) :
    collapseAll (sp ++ e :: S) =
      collapseAll (⟨squashN sp e.node, e.indent⟩ :: S) :=
  collapseAll_spine_len e S sp.length sp rfl

theorem stepLine_eq (stack : List PEntry) (k : Nat) (line : List Char) :
    stepLine ⟨stack, k⟩ line =
      ⟨⟨.mk (mintId k) (extractContent line).1 (extractContent line).2
          (some true) (some []), ((getIndent line : Nat) : Int)⟩ ::
        collapseTo ((getIndent line : Nat) : Int) stack, k + 1⟩ := rfl

theorem appendKids_nil (b : NodeData) : appendKids b [] = b := rfl

theorem appendKids_cons (b : NodeData) (c : NodeData) (ks : List NodeData) :
    appendKids b (c :: ks) = appendKids (appendChild b c) ks := rfl

theorem appendChild_some (i t : List Char) (d : Option Nat) (e : Option Bool)
    (l : List NodeData) (c : NodeData) :
    appendChild (.mk i t d e (some l)) c = .mk i t d e (some (l ++ [c])) := rfl

theorem appendKids_some (i t : List Char) (d : Option Nat) (e : Option Bool)
    (l : List NodeData) (ks : List NodeData) :
    appendKids (.mk i t d e (some l)) ks = .mk i t d e (some (l ++ ks)) := by
  induction ks generalizing l with
  | nil => rw [appendKids_nil, List.append_nil]
  | cons c ks' ih =>
    rw [appendKids_cons, appendChild_some, ih, List.append_assoc,
      List.singleton_append]

/-! ### The parsing loop reconstructs the image of serialized subtrees -/

mutual

/-- Running the parsing loop over the lines of one serialized subtree
pushes a spine that squashes to exactly the subtree's parse image; the
stack below the insertion point only has its pending spine collapsed. -/
theorem runNode (n : NodeData) : ∀ (d k : Nat) (sp₀ : List PEntry)
    (e : PEntry) (T : List PEntry),
    e.indent < ((2 * d : Nat) : Int) →
    (∀ x ∈ sp₀, ((2 * d : Nat) : Int) ≤ x.indent) →
    ∃ sp : List PEntry,
      (processNode n d false).foldl stepLine ⟨sp₀ ++ e :: T, k⟩
        = ⟨sp ++ ⟨squashN sp₀ e.node, e.indent⟩ :: T, k + sizeNode n⟩ ∧
      sp ≠ [] ∧ (∀ x ∈ sp, ((2 * d : Nat) : Int) ≤ x.indent) ∧
      ∀ b : NodeData, squashN sp b = appendChild b (imageNode k d n) := by
  cases n with
  | mk i t dir exp ch =>
    intro d k sp₀ e T he hsp₀
    rw [processNode, List.foldl_cons, stepLine_eq, getIndent_lineFor_nonroot,
      collapseTo_spine _ sp₀ e T hsp₀ (not_le.mpr he)]
    cases ch with
    | none =>
      rw [processChildrenOpt, List.foldl_nil]
      refine ⟨[⟨.mk (mintId k) (extractContent (lineFor t dir d false)).1
        (extractContent (lineFor t dir d false)).2 (some true) (some []),
        ((2 * d : Nat) : Int)⟩], ?_, by simp, ?_, ?_⟩
      · rw [List.singleton_append, sizeNode, sizeChildrenOpt]
      · intro x hx
        rcases List.mem_singleton.mp hx with rfl
        exact le_refl _
      · intro b
        rw [squashN_one, imageNode, imageChildrenOpt]
    | some cs =>
      rw [processChildrenOpt]
      obtain ⟨sp₁, e', heq, hind, heind, hsq⟩ := runForest cs (d + 1) (k + 1)
        [] ⟨.mk (mintId k) (extractContent (lineFor t dir d false)).1
          (extractContent (lineFor t dir d false)).2 (some true) (some []),
          ((2 * d : Nat) : Int)⟩
        (⟨squashN sp₀ e.node, e.indent⟩ :: T)
        (by push_cast; omega) (by simp)
      rw [List.nil_append] at heq
      rw [heq]
      refine ⟨sp₁ ++ [e'], ?_, by simp, ?_, ?_⟩
      · rw [sizeNode, sizeChildrenOpt]
        have harr : sp₁ ++ e' :: (⟨squashN sp₀ e.node, e.indent⟩ :: T)
            = (sp₁ ++ [e']) ++ ⟨squashN sp₀ e.node, e.indent⟩ :: T := by
          simp
        rw [harr]
        have hc : k + 1 + sizeChildren cs = k + (1 + sizeChildren cs) := by omega
        rw [hc]
      · intro x hx
        rcases List.mem_append.mp hx with hx | hx
        · have := hind x hx
          have hmono : ((2 * d : Nat) : Int) ≤ ((2 * (d + 1) : Nat) : Int) := by
            push_cast; omega
          omega
        · rcases List.mem_singleton.mp hx with rfl
          rw [heind]
      · intro b
        rw [squashN_snoc, hsq, squashN_nil, imageNode, imageChildrenOpt,
          appendKids_some, List.nil_append]

/-- Running the parsing loop over the lines of a serialized child forest
appends the forest's image, child by child, to the node below. -/
theorem runForest (cs : List NodeData) : ∀ (d k : Nat) (sp₀ : List PEntry)
    (e : PEntry) (T : List PEntry),
    e.indent < ((2 * d : Nat) : Int) →
    (∀ x ∈ sp₀, ((2 * d : Nat) : Int) ≤ x.indent) →
    ∃ (sp : List PEntry) (e' : PEntry),
      (processChildren cs d).foldl stepLine ⟨sp₀ ++ e :: T, k⟩
        = ⟨sp ++ e' :: T, k + sizeChildren cs⟩ ∧
      (∀ x ∈ sp, ((2 * d : Nat) : Int) ≤ x.indent) ∧ e'.indent = e.indent ∧
      squashN sp e'.node
        = appendKids (squashN sp₀ e.node) (imageChildren k d cs) := by
  cases cs with
  | nil =>
    intro d k sp₀ e T he hsp₀
    rw [processChildren, List.foldl_nil]
    refine ⟨sp₀, e, ?_, hsp₀, rfl, ?_⟩
    · rw [sizeChildren, Nat.add_zero]
    · rw [imageChildren, appendKids_nil]
  | cons c rest =>
    intro d k sp₀ e T he hsp₀
    rw [processChildren, List.foldl_append]
    obtain ⟨spC, heq1, hne1, hind1, hsq1⟩ := runNode c d k sp₀ e T he hsp₀
    rw [heq1]
    obtain ⟨sp, e', heq2, hind2, heind2, hsq2⟩ := runForest rest d
      (k + sizeNode c) spC ⟨squashN sp₀ e.node, e.indent⟩ T he hind1
    rw [heq2]
    refine ⟨sp, e', ?_, hind2, heind2, ?_⟩
    · rw [sizeChildren]
      have hc : k + sizeNode c + sizeChildren rest
          = k + (sizeNode c + sizeChildren rest) := by omega
      rw [hc]
    · rw [hsq2, hsq1, imageChildren, appendKids_cons]

end

/-! ### Line hygiene of serializer output -/

mutual

theorem nl_free_linesNode (n : NodeData) : ∀ (d : Nat) (b : Bool),
    (∀ t ∈ topicsNode n, '\n' ∉ t) → ∀ l ∈ processNode n d b, '\n' ∉ l := by
  cases n with
  | mk i t dir exp ch =>
    intro d b h l hl
    rw [processNode] at hl
    rcases List.mem_cons.mp hl with rfl | hl
    · exact nl_not_mem_lineFor t dir d b (h t (by rw [topicsNode]; simp))
    · exact nl_free_linesChildrenOpt ch (d + 1)
        (fun x hx => h x (by rw [topicsNode]; exact List.mem_cons_of_mem _ hx))
        l hl

theorem nl_free_linesChildrenOpt (ch : Option (List NodeData)) : ∀ (d : Nat),
    (∀ t ∈ topicsChildrenOpt ch, '\n' ∉ t) →
    ∀ l ∈ processChildrenOpt ch d, '\n' ∉ l := by
  cases ch with
  | none => intro d _ l hl; rw [processChildrenOpt] at hl; cases hl
  | some cs =>
    intro d h l hl
    rw [processChildrenOpt] at hl
    exact nl_free_linesChildren cs d (by rwa [topicsChildrenOpt] at h) l hl

theorem nl_free_linesChildren (cs : List NodeData) : ∀ (d : Nat),
    (∀ t ∈ topicsChildren cs, '\n' ∉ t) →
    ∀ l ∈ processChildren cs d, '\n' ∉ l := by
  cases cs with
  | nil => intro d _ l hl; rw [processChildren] at hl; cases hl
  | cons c rest =>
    intro d h l hl
    rw [processChildren] at hl
    rcases List.mem_append.mp hl with hl | hl
    · exact nl_free_linesNode c d false
        (fun x hx => h x (by rw [topicsChildren]; exact
          List.mem_append.mpr (Or.inl hx))) l hl
    · exact nl_free_linesChildren rest d
        (fun x hx => h x (by rw [topicsChildren]; exact
          List.mem_append.mpr (Or.inr hx))) l hl

end

mutual

theorem trim_ne_linesNode (n : NodeData) : ∀ (d : Nat) (b : Bool),
    ∀ l ∈ processNode n d b, trimJs l ≠ [] := by
  cases n with
  | mk i t dir exp ch =>
    intro d b l hl
    rw [processNode] at hl
    rcases List.mem_cons.mp hl with rfl | hl
    · cases b with
      | true => exact trim_lineFor_root_ne t dir d
      | false => exact trim_lineFor_nonroot_ne t dir d
    · exact trim_ne_linesChildrenOpt ch (d + 1) l hl

theorem trim_ne_linesChildrenOpt (ch : Option (List NodeData)) : ∀ (d : Nat),
    ∀ l ∈ processChildrenOpt ch d, trimJs l ≠ [] := by
  cases ch with
  | none => intro d l hl; rw [processChildrenOpt] at hl; cases hl
  | some cs =>
    intro d l hl
    rw [processChildrenOpt] at hl
    exact trim_ne_linesChildren cs d l hl

theorem trim_ne_linesChildren (cs : List NodeData) : ∀ (d : Nat),
    ∀ l ∈ processChildren cs d, trimJs l ≠ [] := by
  cases cs with
  | nil => intro d l hl; rw [processChildren] at hl; cases hl
  | cons c rest =>
    intro d l hl
    rw [processChildren] at hl
    rcases List.mem_append.mp hl with hl | hl
    · exact trim_ne_linesNode c d false l hl
    · exact trim_ne_linesChildren rest d l hl

end

/-! ### The round-trip theorem -/

/-- Reduction of `mermaidToData` when the line list starts with the
header. -/
theorem mermaidToData_header (m r0 : List Char) (rs : List (List Char))
    (hf : (splitNl m).filter (fun l => !(trimJs l).isEmpty)
      = "mindmap".data :: r0 :: rs) :
    mermaidToData m = parseFromLines r0 rs := by
  rw [mermaidToData]
  simp only [hf]
  rw [if_pos (by decide)]

/-- Reduction of `parseFromLines` on a root line of a serialized tree
followed by the lines of its child forest. -/
theorem parseFromLines_root (t : List Char) (dir : Option Nat)
    (rs : List (List Char)) :
    parseFromLines (lineFor t dir 1 true) rs =
      ⟨some (normalizeNodeData (collapseAll
        ((rs.foldl stepLine
          ⟨[⟨.mk "root".data (extractContent (lineFor t dir 1 true)).1 none
              (some true) (some []), ((2 : Nat) : Int)⟩], 0⟩).stack)))⟩ := by
  rw [parseFromLines]
  rw [getIndent_lineFor_root]

theorem collapseAll_singleton (e : PEntry) : collapseAll [e] = e.node := by
  rw [show collapseAll [e] = collapseAllF 1 [e] from rfl, collapseAllF]

theorem squashN_nil_eq (b : NodeData) : squashN [] b = b := rfl

/-- Parsing the serializer's own output of a tree whose topics are free of
newlines yields exactly the parse image of the tree (normalized). -/
theorem roundTrip_eq_image (T : NodeData) (h : NlFreeTree T) :
    mermaidToData (dataToMermaid ⟨some T⟩) =
      ⟨some (normalizeNodeData (rootImage T))⟩ := by
  cases T with
  | mk i t dir exp ch =>
    rw [dataToMermaid]
    have hlines : splitNl (joinNl ("mindmap".data ::
        processNode (.mk i t dir exp ch) 1 true))
        = "mindmap".data :: processNode (.mk i t dir exp ch) 1 true := by
      apply splitNl_joinNl _ (by simp)
      intro l hl
      rcases List.mem_cons.mp hl with rfl | hl
      · decide
      · exact nl_free_linesNode _ 1 true h l hl
    have hfilter : ("mindmap".data ::
        processNode (.mk i t dir exp ch) 1 true).filter
        (fun l => !(trimJs l).isEmpty)
        = "mindmap".data :: processNode (.mk i t dir exp ch) 1 true := by
      rw [List.filter_eq_self]
      intro l hl
      rcases List.mem_cons.mp hl with rfl | hl
      · decide
      · have hne := trim_ne_linesNode _ 1 true l hl
        simp only [Bool.not_eq_true', List.isEmpty_eq_false]
        exact hne
    rw [mermaidToData_header _ (lineFor t dir 1 true) (processChildrenOpt ch 2)
      (by rw [hlines, hfilter, processNode])]
    rw [parseFromLines_root]
    cases ch with
    | none =>
      rw [processChildrenOpt, List.foldl_nil]
      rw [collapseAll_singleton]
      rw [rootImage, imageChildrenOpt]
    | some cs =>
      rw [processChildrenOpt]
      obtain ⟨sp, e', heq, -, -, hsq⟩ := runForest cs 2 0 []
        ⟨.mk "root".data (extractContent (lineFor t dir 1 true)).1 none
          (some true) (some []), ((2 : Nat) : Int)⟩ []
        (by norm_num) (by simp)
      rw [List.nil_append] at heq
      rw [heq]
      rw [collapseAll_spine sp e' [], collapseAll_singleton]
      rw [hsq, squashN_nil_eq]
      rw [appendKids_some, List.nil_append, rootImage, imageChildrenOpt]

/-! ### Normalization lemmas -/

theorem normChildren_eq_map (l : List NodeData) :
    normChildren l = l.map normalizeNodeData := by
  induction l with
  | nil => rw [normChildren, List.map_nil]
  | cons c cs ih => rw [normChildren, List.map_cons, ih]

theorem normalize_fields (n : NodeData) :
    idOf (normalizeNodeData n) = idOf n ∧
    topicOf (normalizeNodeData n) = topicOf n ∧
    dirOf (normalizeNodeData n) = dirOf n ∧
    expOf (normalizeNodeData n) = some ((expOf n).getD true) ∧
    chOf (normalizeNodeData n) =
      some ((childrenList n).map normalizeNodeData) := by
  cases n with
  | mk i t d e ch =>
    refine ⟨rfl, rfl, rfl, rfl, ?_⟩
    rw [normalizeNodeData, chOf, childrenList, chOf]
    cases ch with
    | none => rw [normChildrenOpt]; rfl
    | some cs => rw [normChildrenOpt, normChildren_eq_map]; rfl

mutual

theorem preorder_normalize (n : NodeData) :
    preorderNode (normalizeNodeData n)
      = (preorderNode n).map normalizeNodeData := by
  cases n with
  | mk i t d e ch =>
    rw [normalizeNodeData, preorderNode, preorderNode, List.map_cons]
    rw [show preorderChildrenOpt (some (normChildrenOpt ch))
      = preorderChildren (normChildrenOpt ch) from rfl]
    rw [preorder_normChildrenOpt ch]
    rfl

theorem preorder_normChildrenOpt (ch : Option (List NodeData)) :
    preorderChildren (normChildrenOpt ch)
      = (preorderChildrenOpt ch).map normalizeNodeData := by
  cases ch with
  | none => rfl
  | some cs =>
    rw [normChildrenOpt, preorderChildrenOpt]
    exact preorder_normChildren cs

theorem preorder_normChildren (cs : List NodeData) :
    preorderChildren (normChildren cs)
      = (preorderChildren cs).map normalizeNodeData := by
  cases cs with
  | nil => rfl
  | cons c rest =>
    rw [normChildren, preorderChildren, preorderChildren, List.map_append,
      preorder_normalize c, preorder_normChildren rest]

end

mutual

theorem topics_normalize (n : NodeData) :
    topicsNode (normalizeNodeData n) = topicsNode n := by
  cases n with
  | mk i t d e ch =>
    rw [normalizeNodeData, topicsNode, topicsNode]
    rw [show topicsChildrenOpt (some (normChildrenOpt ch))
      = topicsChildren (normChildrenOpt ch) from rfl]
    rw [topics_normChildrenOpt ch]

theorem topics_normChildrenOpt (ch : Option (List NodeData)) :
    topicsChildren (normChildrenOpt ch) = topicsChildrenOpt ch := by
  cases ch with
  | none => rw [normChildrenOpt, topicsChildren, topicsChildrenOpt]
  | some cs =>
    rw [normChildrenOpt, topicsChildrenOpt]
    exact topics_normChildren cs

theorem topics_normChildren (cs : List NodeData) :
    topicsChildren (normChildren cs) = topicsChildren cs := by
  cases cs with
  | nil => rw [normChildren]
  | cons c rest =>
    rw [normChildren, topicsChildren, topicsChildren,
      topics_normalize c, topics_normChildren rest]

end

/-! ### Shallow fields of the accumulated root -/

theorem appendChild_shallow (p c : NodeData) :
    idOf (appendChild p c) = idOf p ∧ topicOf (appendChild p c) = topicOf p ∧
    dirOf (appendChild p c) = dirOf p ∧ expOf (appendChild p c) = expOf p := by
  cases p with
  | mk i t d e ch => exact ⟨rfl, rfl, rfl, rfl⟩

/-- The shallow fields (id, topic, direction, expanded) of a node. -/
def shallowOf (n : NodeData) :
    List Char × List Char × Option Nat × Option Bool :=
  (idOf n, topicOf n, dirOf n, expOf n)

theorem appendChild_shallowOf (p c : NodeData) :
    shallowOf (appendChild p c) = shallowOf p := by
  cases p with
  | mk i t d e ch => rfl

theorem normalize_dirOf (n : NodeData) :
    dirOf (normalizeNodeData n) = dirOf n :=
  (normalize_fields n).2.2.1

/-- Collapsing the whole stack yields a node with the shallow fields of
the bottom entry. -/
theorem collapseAll_shallow_len : ∀ (m : Nat) (S : List PEntry) (e : PEntry),
    S.length = m → shallowOf (collapseAll (S ++ [e])) = shallowOf e.node := by
  intro m
  induction m with
  | zero =>
    intro S e hlen
    rw [List.length_eq_zero] at hlen
    subst hlen
    rw [List.nil_append, collapseAll_singleton]
  | succ p ih =>
    intro S e hlen
    cases S with
    | nil => simp at hlen
    | cons x S' =>
      cases S' with
      | nil =>
        rw [List.singleton_append, collapseAll_cons, collapseAll_singleton,
          appendChild_shallowOf]
      | cons y r =>
        rw [List.cons_append, List.cons_append, collapseAll_cons,
          ← List.cons_append]
        rw [ih (⟨appendChild y.node x.node, y.indent⟩ :: r) e
          (by simp at hlen ⊢; omega)]

theorem collapseAll_shallow (S : List PEntry) (e : PEntry) :
    shallowOf (collapseAll (S ++ [e])) = shallowOf e.node :=
  collapseAll_shallow_len S.length S e rfl

/-- The last stack entry: collapsing to any width keeps the stack
nonempty and preserves the shallow fields of the bottom node. -/
theorem collapseTo_last_len : ∀ (m : Nat) (i : Int) (S : List PEntry),
    S.length = m → S ≠ [] →
    ∃ (pre : List PEntry) (last : PEntry),
      collapseTo i S = pre ++ [last] ∧
      S.getLast?.map (fun e => shallowOf e.node)
        = some (shallowOf last.node) := by
  intro m
  induction m with
  | zero =>
    intro i S hlen hne
    rw [List.length_eq_zero] at hlen
    exact absurd hlen hne
  | succ p ih =>
    intro i S hlen hne
    cases S with
    | nil => exact absurd rfl hne
    | cons x S' =>
      cases S' with
      | nil =>
        by_cases hx : i ≤ x.indent
        · exact ⟨[], ⟨x.node, -1⟩, by rw [collapseTo_one, if_pos hx]; rfl, rfl⟩
        · exact ⟨[], x, by rw [collapseTo_one, if_neg hx]; rfl, rfl⟩
      | cons y r =>
        by_cases hx : i ≤ x.indent
        · obtain ⟨pre, last, heq, hsh⟩ := ih i
            (⟨appendChild y.node x.node, y.indent⟩ :: r)
            (by simp at hlen ⊢; omega) (by simp)
          refine ⟨pre, last, by rw [collapseTo_two, if_pos hx]; exact heq, ?_⟩
          rw [← hsh]
          cases r with
          | nil => simp [appendChild_shallowOf]
          | cons z r' => simp only [List.getLast?_cons_cons]
        · refine ⟨(x :: y :: r).dropLast, (x :: y :: r).getLast (by simp),
            ?_, ?_⟩
          · rw [collapseTo_two, if_neg hx, List.dropLast_append_getLast]
          · simp [List.getLast?_eq_getLast]

theorem collapseTo_last (i : Int) (S : List PEntry) (hne : S ≠ []) :
    ∃ (pre : List PEntry) (last : PEntry),
      collapseTo i S = pre ++ [last] ∧
      S.getLast?.map (fun e => shallowOf e.node)
        = some (shallowOf last.node) :=
  collapseTo_last_len S.length i S rfl hne

theorem eq_dropLast_append (l : List PEntry) (a : PEntry)
    (h : l.getLast? = some a) : l = l.dropLast ++ [a] := by
  induction l with
  | nil => cases h
  | cons x xs ih =>
    cases xs with
    | nil =>
      rw [List.getLast?_singleton, Option.some_inj] at h
      rw [h]
      rfl
    | cons y r =>
      rw [List.getLast?_cons_cons] at h
      have := ih h
      rw [List.dropLast_cons₂, List.cons_append, ← this]

/-- Folding the parse step over any lines keeps the stack nonempty and
preserves the shallow fields of the bottom (root) node. -/
theorem foldl_stepLine_last (L : List (List Char)) : ∀ (st : PState),
    st.stack ≠ [] →
    (L.foldl stepLine st).stack ≠ [] ∧
    (L.foldl stepLine st).stack.getLast?.map (fun e => shallowOf e.node)
      = st.stack.getLast?.map (fun e => shallowOf e.node) := by
  induction L with
  | nil => intro st h; exact ⟨h, rfl⟩
  | cons l L' ih =>
    intro st h
    rw [List.foldl_cons]
    obtain ⟨pre, last, heq, hsh⟩ :=
      collapseTo_last ((getIndent l : Nat) : Int) st.stack h
    have hstep : (stepLine st l).stack
        = (⟨.mk (mintId st.counter) (extractContent l).1 (extractContent l).2
            (some true) (some []), ((getIndent l : Nat) : Int)⟩ :: pre)
          ++ [last] := by
      cases st with
      | mk stack k => rw [stepLine_eq, heq]; rfl
    obtain ⟨h1, h2⟩ := ih (stepLine st l) (by rw [hstep]; simp)
    refine ⟨h1, ?_⟩
    rw [h2, hstep, List.getLast?_concat, Option.map_some']
    exact hsh.symm

/-- For every root line and line list, the parsed tree's root keeps the
fixed id, no direction, `expanded = true`, and materialized children. -/
theorem parseFromLines_shallow (r0 : List Char) (rs : List (List Char)) :
    ∃ R, parseFromLines r0 rs = ⟨some R⟩ ∧ idOf R = "root".data ∧
      topicOf R = (extractContent r0).1 ∧ dirOf R = none ∧
      expOf R = some true ∧ (chOf R).isSome := by
  rw [parseFromLines]
  refine ⟨_, rfl, ?_⟩
  set rootN : NodeData := .mk "root".data (extractContent r0).1 none
    (some true) (some []) with hrootN
  set st0 : PState := ⟨[⟨rootN, ((getIndent r0 : Nat) : Int)⟩], 0⟩ with hst0
  set stk := (rs.foldl stepLine st0).stack with hstk
  obtain ⟨hne, hlast⟩ := foldl_stepLine_last rs st0 (by rw [hst0]; simp)
  rw [← hstk] at hne hlast
  obtain ⟨e, he⟩ : ∃ e, stk.getLast? = some e := by
    cases hcase : stk.getLast? with
    | none =>
      rw [List.getLast?_eq_none_iff] at hcase
      exact absurd hcase hne
    | some e => exact ⟨e, rfl⟩
  have hsh : shallowOf e.node = shallowOf rootN := by
    rw [he, hst0] at hlast
    simp only [List.getLast?_singleton, Option.map_some'] at hlast
    exact Option.some_inj.mp hlast
  have key : shallowOf (collapseAll stk) = shallowOf rootN := by
    calc shallowOf (collapseAll stk)
        = shallowOf (collapseAll (stk.dropLast ++ [e])) := by
          rw [← eq_dropLast_append _ e he]
      _ = shallowOf e.node := collapseAll_shallow _ _
      _ = shallowOf rootN := hsh
  obtain ⟨f1, f2, f3, f4, f5⟩ := normalize_fields (collapseAll stk)
  have k1 : idOf (collapseAll stk) = "root".data :=
    congrArg (fun p => p.1) key
  have k2 : topicOf (collapseAll stk) = (extractContent r0).1 :=
    congrArg (fun p => p.2.1) key
  have k3 : dirOf (collapseAll stk) = none :=
    congrArg (fun p => p.2.2.1) key
  have k4 : expOf (collapseAll stk) = some true :=
    congrArg (fun p => p.2.2.2) key
  refine ⟨?_, ?_, ?_, ?_, ?_⟩
  · rw [f1, k1]
  · rw [f2, k2]
  · rw [f3, k3]
  · rw [f4, k4]
    rfl
  · rw [f5]
    rfl

/-- For every input string the parser returns a single-rooted tree whose
root has the fixed id, no direction, and `expanded = true`. -/
theorem mermaid_root_shallow (m : List Char) :
    ∃ R, (mermaidToData m).nodeData = some R ∧ idOf R = "root".data ∧
      dirOf R = none ∧ expOf R = some true ∧ (chOf R).isSome := by
  rw [mermaidToData]
  cases hf : (splitNl m).filter (fun l => !(trimJs l).isEmpty) with
  | nil => exact ⟨_, rfl, rfl, rfl, rfl, rfl⟩
  | cons l0 rest =>
    dsimp only
    by_cases hh : toLowerJs (trimJs l0) = "mindmap".data
    · rw [if_pos hh]
      cases rest with
      | nil => exact ⟨_, rfl, rfl, rfl, rfl, rfl⟩
      | cons r0 rs =>
        obtain ⟨R, h1, h2, -, h3, h4, h5⟩ := parseFromLines_shallow r0 rs
        exact ⟨R, by dsimp only; rw [h1], h2, h3, h4, h5⟩
    · rw [if_neg hh]
      obtain ⟨R, h1, h2, -, h3, h4, h5⟩ := parseFromLines_shallow l0 rest
      exact ⟨R, by rw [h1], h2, h3, h4, h5⟩

/-- When no content lines remain (empty document, or only the
case-insensitive header), the parser returns the placeholder tree. -/
theorem mermaidToData_placeholder (m : List Char)
    (h : (splitNl m).filter (fun l => !(trimJs l).isEmpty) = [] ∨
      ∃ l0, (splitNl m).filter (fun l => !(trimJs l).isEmpty) = [l0] ∧
        toLowerJs (trimJs l0) = "mindmap".data) :
    mermaidToData m = placeholderData := by
  rw [mermaidToData]
  rcases h with h | ⟨l0, hf, hh⟩
  · rw [h]
  · rw [hf]
    dsimp only
    rw [if_pos hh]

/-! ### Topics and lines of the parse image (clean topics) -/

mutual

theorem topics_imageNode (n : NodeData) : ∀ (k d : Nat),
    (∀ t ∈ topicsNode n, cleanTopic t) →
    topicsNode (imageNode k d n) = topicsNode n := by
  cases n with
  | mk i t dir exp ch =>
    intro k d h
    rw [imageNode, topicsNode, topicsNode]
    rw [show topicsChildrenOpt (some (imageChildrenOpt (k + 1) (d + 1) ch))
      = topicsChildren (imageChildrenOpt (k + 1) (d + 1) ch) from rfl]
    rw [topics_imageChildrenOpt ch (k + 1) (d + 1)
      (fun x hx => h x (by rw [topicsNode]; exact List.mem_cons_of_mem _ hx))]
    rw [show (extractContent (lineFor t dir d false)).1 = t from
      congrArg Prod.fst (extract_nonroot_clean t dir d
        (h t (by rw [topicsNode]; simp)))]

theorem topics_imageChildrenOpt (ch : Option (List NodeData)) : ∀ (k d : Nat),
    (∀ t ∈ topicsChildrenOpt ch, cleanTopic t) →
    topicsChildren (imageChildrenOpt k d ch) = topicsChildrenOpt ch := by
  cases ch with
  | none => intro k d _; rfl
  | some cs =>
    intro k d h
    rw [imageChildrenOpt, topicsChildrenOpt]
    exact topics_imageChildren cs k d (by rwa [topicsChildrenOpt] at h)

theorem topics_imageChildren (cs : List NodeData) : ∀ (k d : Nat),
    (∀ t ∈ topicsChildren cs, cleanTopic t) →
    topicsChildren (imageChildren k d cs) = topicsChildren cs := by
  cases cs with
  | nil => intro k d _; rfl
  | cons c rest =>
    intro k d h
    rw [imageChildren, topicsChildren, topicsChildren]
    rw [topics_imageNode c k d (fun x hx => h x (by
      rw [topicsChildren]; exact List.mem_append.mpr (Or.inl hx)))]
    rw [topics_imageChildren rest (k + sizeNode c) d (fun x hx => h x (by
      rw [topicsChildren]; exact List.mem_append.mpr (Or.inr hx)))]

end

theorem topics_rootImage (T : NodeData) (h : CleanTree T) :
    topicsNode (rootImage T) = topicsNode T := by
  cases T with
  | mk i t dir exp ch =>
    rw [rootImage, topicsNode, topicsNode]
    rw [show topicsChildrenOpt (some (imageChildrenOpt 0 2 ch))
      = topicsChildren (imageChildrenOpt 0 2 ch) from rfl]
    rw [topics_imageChildrenOpt ch 0 2
      (fun x hx => h x (by rw [topicsNode]; exact List.mem_cons_of_mem _ hx))]
    rw [show (extractContent (lineFor t dir 1 true)).1 = t from
      congrArg Prod.fst (extract_root_clean t dir 1
        (h t (by rw [topicsNode]; simp)))]

/-! ### Normalization is the identity on parser images -/

mutual

theorem norm_imageNode (n : NodeData) : ∀ (k d : Nat),
    normalizeNodeData (imageNode k d n) = imageNode k d n := by
  cases n with
  | mk i t dir exp ch =>
    intro k d
    rw [imageNode, normalizeNodeData]
    rw [show normChildrenOpt (some (imageChildrenOpt (k + 1) (d + 1) ch))
      = normChildren (imageChildrenOpt (k + 1) (d + 1) ch) from rfl]
    rw [norm_imageChildrenOpt ch (k + 1) (d + 1)]
    rfl

theorem norm_imageChildrenOpt (ch : Option (List NodeData)) : ∀ (k d : Nat),
    normChildren (imageChildrenOpt k d ch) = imageChildrenOpt k d ch := by
  cases ch with
  | none => intro k d; rfl
  | some cs =>
    intro k d
    rw [imageChildrenOpt]
    exact norm_imageChildren cs k d

theorem norm_imageChildren (cs : List NodeData) : ∀ (k d : Nat),
    normChildren (imageChildren k d cs) = imageChildren k d cs := by
  cases cs with
  | nil => intro k d; rfl
  | cons c rest =>
    intro k d
    rw [imageChildren, normChildren, norm_imageNode c k d,
      norm_imageChildren rest (k + sizeNode c) d]

end

theorem norm_rootImage (T : NodeData) :
    normalizeNodeData (rootImage T) = rootImage T := by
  cases T with
  | mk i t dir exp ch =>
    rw [rootImage, normalizeNodeData]
    rw [show normChildrenOpt (some (imageChildrenOpt 0 2 ch))
      = normChildren (imageChildrenOpt 0 2 ch) from rfl]
    rw [norm_imageChildrenOpt ch 0 2]
    rfl

/-! ### Re-serializing the parse image (clean topics) -/

theorem dirTag_dirFilter (d : Nat) (dir : Option Nat) :
    dirTag d (dirFilter d dir) = dirTag d dir := by
  unfold dirFilter dirTag
  by_cases hd : d = 2 <;> by_cases h1 : dir = some 1 <;>
    by_cases h0 : dir = some 0 <;> simp_all

mutual

theorem lines_imageNode (n : NodeData) : ∀ (k d : Nat),
    (∀ t ∈ topicsNode n, cleanTopic t) →
    processNode (imageNode k d n) d false = processNode n d false := by
  cases n with
  | mk i t dir exp ch =>
    intro k d h
    rw [imageNode, processNode, processNode]
    rw [show processChildrenOpt (some (imageChildrenOpt (k + 1) (d + 1) ch))
        (d + 1)
      = processChildren (imageChildrenOpt (k + 1) (d + 1) ch) (d + 1) from rfl]
    rw [lines_imageChildrenOpt ch (k + 1) (d + 1)
      (fun x hx => h x (by rw [topicsNode]; exact List.mem_cons_of_mem _ hx))]
    have hex := extract_nonroot_clean t dir d (h t (by rw [topicsNode]; simp))
    rw [show (extractContent (lineFor t dir d false)).1 = t from
      congrArg Prod.fst hex]
    rw [show (extractContent (lineFor t dir d false)).2 = dirFilter d dir from
      congrArg Prod.snd hex]
    rw [show lineFor t (dirFilter d dir) d false = lineFor t dir d false by
      unfold lineFor
      rw [if_neg (by simp), if_neg (by simp), dirTag_dirFilter]]

theorem lines_imageChildrenOpt (ch : Option (List NodeData)) : ∀ (k d : Nat),
    (∀ t ∈ topicsChildrenOpt ch, cleanTopic t) →
    processChildren (imageChildrenOpt k d ch) d = processChildrenOpt ch d := by
  cases ch with
  | none => intro k d _; rfl
  | some cs =>
    intro k d h
    rw [imageChildrenOpt, processChildrenOpt]
    exact lines_imageChildren cs k d (by rwa [topicsChildrenOpt] at h)

theorem lines_imageChildren (cs : List NodeData) : ∀ (k d : Nat),
    (∀ t ∈ topicsChildren cs, cleanTopic t) →
    processChildren (imageChildren k d cs) d = processChildren cs d := by
  cases cs with
  | nil => intro k d _; rfl
  | cons c rest =>
    intro k d h
    rw [imageChildren, processChildren, processChildren]
    rw [lines_imageNode c k d (fun x hx => h x (by
      rw [topicsChildren]; exact List.mem_append.mpr (Or.inl hx)))]
    rw [lines_imageChildren rest (k + sizeNode c) d (fun x hx => h x (by
      rw [topicsChildren]; exact List.mem_append.mpr (Or.inr hx)))]

end

theorem lines_rootImage (T : NodeData) (h : CleanTree T) :
    processNode (rootImage T) 1 true = processNode T 1 true := by
  cases T with
  | mk i t dir exp ch =>
    rw [rootImage, processNode, processNode]
    rw [show processChildrenOpt (some (imageChildrenOpt 0 2 ch)) 2
      = processChildren (imageChildrenOpt 0 2 ch) 2 from rfl]
    rw [lines_imageChildrenOpt ch 0 2
      (fun x hx => h x (by rw [topicsNode]; exact List.mem_cons_of_mem _ hx))]
    have hex := extract_root_clean t dir 1 (h t (by rw [topicsNode]; simp))
    rw [show (extractContent (lineFor t dir 1 true)).1 = t from
      congrArg Prod.fst hex]
    rw [show lineFor t none 1 true = lineFor t dir 1 true by
      unfold lineFor
      rw [if_pos rfl, if_pos rfl]]

/-! ### Direction of deep image nodes -/

/-- No topic of the tree begins with a direction tag. -/
def TagFree (n : NodeData) : Prop :=
  ∀ t ∈ topicsNode n,
    isPre "[R] ".data t = false ∧ isPre "[L] ".data t = false

instance (n : NodeData) : Decidable (TagFree n) := by
  unfold TagFree; infer_instance

theorem extract_nonroot_deep_dir (t : List Char) (dir : Option Nat) (d : Nat)
    (hd : d ≠ 2) (h1 : isPre "[R] ".data t = false)
    (h2 : isPre "[L] ".data t = false) :
    (extractContent (lineFor t dir d false)).2 = none := by
  rw [extract_nonroot]
  rw [show dirTag d dir = [] by unfold dirTag; rw [if_neg hd], List.nil_append]
  rw [stripDir_none _ (isPre_R_escape_false t h1) (isPre_L_escape_false t h2)]

mutual

theorem dir_imageNode_deep (n : NodeData) : ∀ (k d : Nat), 3 ≤ d →
    (∀ t ∈ topicsNode n,
      isPre "[R] ".data t = false ∧ isPre "[L] ".data t = false) →
    ∀ x ∈ preorderNode (imageNode k d n), dirOf x = none := by
  cases n with
  | mk i t dir exp ch =>
    intro k d hd h x hx
    rw [imageNode, preorderNode] at hx
    rcases List.mem_cons.mp hx with rfl | hx
    · rw [dirOf]
      obtain ⟨h1, h2⟩ := h t (by rw [topicsNode]; simp)
      exact extract_nonroot_deep_dir t dir d (by omega) h1 h2
    · rw [show preorderChildrenOpt (some (imageChildrenOpt (k + 1) (d + 1) ch))
        = preorderChildren (imageChildrenOpt (k + 1) (d + 1) ch) from rfl] at hx
      exact dir_imageChildrenOpt_deep ch (k + 1) (d + 1) (by omega)
        (fun s hs => h s (by rw [topicsNode]; exact List.mem_cons_of_mem _ hs))
        x hx

theorem dir_imageChildrenOpt_deep (ch : Option (List NodeData)) :
    ∀ (k d : Nat), 3 ≤ d →
    (∀ t ∈ topicsChildrenOpt ch,
      isPre "[R] ".data t = false ∧ isPre "[L] ".data t = false) →
    ∀ x ∈ preorderChildren (imageChildrenOpt k d ch), dirOf x = none := by
  cases ch with
  | none => intro k d _ _ x hx; cases hx
  | some cs =>
    intro k d hd h x hx
    rw [imageChildrenOpt] at hx
    exact dir_imageChildren_deep cs k d hd
      (by rwa [topicsChildrenOpt] at h) x hx

theorem dir_imageChildren_deep (cs : List NodeData) : ∀ (k d : Nat), 3 ≤ d →
    (∀ t ∈ topicsChildren cs,
      isPre "[R] ".data t = false ∧ isPre "[L] ".data t = false) →
    ∀ x ∈ preorderChildren (imageChildren k d cs), dirOf x = none := by
  cases cs with
  | nil => intro k d _ _ x hx; cases hx
  | cons c rest =>
    intro k d hd h x hx
    rw [imageChildren, preorderChildren] at hx
    rcases List.mem_append.mp hx with hx | hx
    · refine dir_imageNode_deep c k d hd ?_ x hx
      intro s hs
      refine h s ?_
      rw [topicsChildren]
      exact List.mem_append.mpr (Or.inl hs)
    · refine dir_imageChildren_deep rest (k + sizeNode c) d hd ?_ x hx
      intro s hs
      refine h s ?_
      rw [topicsChildren]
      exact List.mem_append.mpr (Or.inr hs)

end

/-- Every element of a child-forest image is the image of some child. -/
theorem mem_imageChildren (cs : List NodeData) : ∀ (k d : Nat) (x : NodeData),
    x ∈ imageChildren k d cs →
    ∃ (k' : Nat) (c : NodeData), c ∈ cs ∧ x = imageNode k' d c := by
  induction cs with
  | nil => intro k d x hx; rw [imageChildren] at hx; cases hx
  | cons c rest ih =>
    intro k d x hx
    rw [imageChildren] at hx
    rcases List.mem_cons.mp hx with rfl | hx
    · exact ⟨k, c, by simp, rfl⟩
    · obtain ⟨k', c', hc', hx'⟩ := ih (k + sizeNode c) d x hx
      exact ⟨k', c', by simp [hc'], hx'⟩

/-- Topics of a child are topics of the forest. -/
theorem topics_mem_of_child (cs : List NodeData) (c : NodeData) :
    c ∈ cs → ∀ x ∈ topicsNode c, x ∈ topicsChildren cs := by
  induction cs with
  | nil => intro h; cases h
  | cons c0 rest ih =>
    intro hc x hx
    rw [topicsChildren]
    rcases List.mem_cons.mp hc with rfl | hc
    · exact List.mem_append.mpr (Or.inl hx)
    · exact List.mem_append.mpr (Or.inr (ih hc x hx))

theorem topics_chOf_sub (n : NodeData) :
    ∀ x ∈ topicsChildrenOpt (chOf n), x ∈ topicsNode n := by
  cases n with
  | mk i t d e ch =>
    intro x hx
    rw [topicsNode]
    exact List.mem_cons_of_mem _ (by rwa [chOf] at hx)

/-- Indexed version of the child-forest image. -/
theorem imageChildren_get (cs : List NodeData) : ∀ (k d j : Nat)
    (c : NodeData), cs.get? j = some c →
    ∃ k', (imageChildren k d cs).get? j = some (imageNode k' d c) := by
  induction cs with
  | nil => intro k d j c h; cases j <;> cases h
  | cons c0 rest ih =>
    intro k d j c h
    cases j with
    | zero =>
      rw [List.get?] at h
      injection h with h
      exact ⟨k, by rw [imageChildren, h, List.get?]⟩
    | succ j' =>
      rw [List.get?] at h
      obtain ⟨k', hk⟩ := ih (k + sizeNode c0) d j' c h
      exact ⟨k', by rw [imageChildren, List.get?]; exact hk⟩

/-! ### Reseed instrumentation lemmas -/

theorem mem_of_getLast_pe (l : List PEntry) (a : PEntry)
    (h : l.getLast? = some a) : a ∈ l := by
  have h2 := List.dropLast_append_getLast? a (by rw [h]; rfl)
  rw [← h2]
  simp

theorem anyReseed_fst (L : List (List Char)) : ∀ (st : PState) (b : Bool),
    (L.foldl anyReseed (st, b)).1 = L.foldl stepLine st := by
  induction L with
  | nil => intro st b; rfl
  | cons l L' ih =>
    intro st b
    rw [List.foldl_cons, List.foldl_cons]
    exact ih (stepLine st l) _

theorem mermaidToDataFlag_fst (m : List Char) :
    (mermaidToDataFlag m).1 = mermaidToData m := by
  rw [mermaidToDataFlag, mermaidToData]
  cases hf : (splitNl m).filter (fun l => !(trimJs l).isEmpty) with
  | nil => rfl
  | cons l0 rest =>
    dsimp only
    by_cases hh : toLowerJs (trimJs l0) = "mindmap".data
    · rw [if_pos hh, if_pos hh]
      cases rest with
      | nil => rfl
      | cons r0 rs =>
        dsimp only
        rw [parseFromLines, anyReseed_fst]
    · rw [if_neg hh, if_neg hh, parseFromLines, anyReseed_fst]

theorem collapseTo_last_indent_len : ∀ (m : Nat) (i : Int) (S : List PEntry),
    S.length = m → (∃ e ∈ S, ¬ i ≤ e.indent) →
    (collapseTo i S).getLast?.map (fun e => e.indent)
      = S.getLast?.map (fun e => e.indent) := by
  intro m
  induction m with
  | zero =>
    intro i S hlen hw
    rw [List.length_eq_zero] at hlen
    subst hlen
    obtain ⟨e, he, -⟩ := hw
    cases he
  | succ p ih =>
    intro i S hlen hw
    cases S with
    | nil => simp at hlen
    | cons x S' =>
      cases S' with
      | nil =>
        obtain ⟨e, he, hei⟩ := hw
        rcases List.mem_singleton.mp he with rfl
        rw [collapseTo_one, if_neg hei]
      | cons y r =>
        by_cases hx : i ≤ x.indent
        · rw [collapseTo_two, if_pos hx]
          have hw' : ∃ e ∈ (⟨appendChild y.node x.node, y.indent⟩ :: r :
              List PEntry), ¬ i ≤ e.indent := by
            obtain ⟨e, he, hei⟩ := hw
            rcases List.mem_cons.mp he with rfl | he
            · exact absurd hx hei
            · rcases List.mem_cons.mp he with rfl | he
              · exact ⟨⟨appendChild e.node x.node, e.indent⟩, by simp, hei⟩
              · exact ⟨e, by simp [he], hei⟩
          rw [ih i _ (by simp at hlen ⊢; omega) hw']
          cases r with
          | nil => rfl
          | cons z r' => simp only [List.getLast?_cons_cons]
        · rw [collapseTo_two, if_neg hx]

theorem collapseTo_last_indent (i : Int) (S : List PEntry)
    (hw : ∃ e ∈ S, ¬ i ≤ e.indent) :
    (collapseTo i S).getLast?.map (fun e => e.indent)
      = S.getLast?.map (fun e => e.indent) :=
  collapseTo_last_indent_len S.length i S rfl hw

/-- Folding the instrumented step over lines all indented at least four
columns, from a state whose bottom entry sits at width two, never
executes the defensive re-seed branch. -/
theorem foldl_anyReseed_false (L : List (List Char)) : ∀ (st : PState),
    (∀ l ∈ L, 4 ≤ getIndent l) →
    st.stack.getLast?.map (fun e => e.indent) = some 2 →
    (L.foldl anyReseed (st, false)).2 = false := by
  induction L with
  | nil => intro st _ _; rfl
  | cons l L' ih =>
    intro st hL hbot
    obtain ⟨e, hlast, hei⟩ : ∃ e, st.stack.getLast? = some e ∧
        e.indent = 2 := by
      cases hcase : st.stack.getLast? with
      | none => rw [hcase] at hbot; cases hbot
      | some e =>
        rw [hcase, Option.map_some'] at hbot
        exact ⟨e, rfl, Option.some_inj.mp hbot⟩
    have hmem := mem_of_getLast_pe _ _ hlast
    have hge : (4 : Int) ≤ ((getIndent l : Nat) : Int) := by
      have := hL l (by simp)
      omega
    have hwit : ¬ ((getIndent l : Nat) : Int) ≤ e.indent := by
      rw [hei]; omega
    have hflag : reseedB ((getIndent l : Nat) : Int) st.stack = false := by
      rw [reseedB, List.all_eq_false]
      exact ⟨e, hmem, by simpa using hwit⟩
    rw [List.foldl_cons]
    have hstep : anyReseed (st, false) l = (stepLine st l, false) := by
      rw [anyReseed, hflag]
      rfl
    rw [hstep]
    apply ih (stepLine st l) (fun x hx => hL x (by simp [hx]))
    have hne : st.stack ≠ [] := by
      intro hcon
      rw [hcon] at hlast
      cases hlast
    obtain ⟨pre, last, heq, -⟩ :=
      collapseTo_last ((getIndent l : Nat) : Int) st.stack hne
    have hind := collapseTo_last_indent ((getIndent l : Nat) : Int) st.stack
      ⟨e, hmem, hwit⟩
    cases st with
    | mk stack k =>
      rw [stepLine_eq]
      show ((⟨_, ((getIndent l : Nat) : Int)⟩ :: collapseTo _ stack :
        List PEntry).getLast?).map (fun e => e.indent) = some 2
      rw [heq] at hind ⊢
      rw [show (⟨.mk (mintId k) (extractContent l).1 (extractContent l).2
          (some true) (some []), ((getIndent l : Nat) : Int)⟩ :: (pre ++ [last])
          : List PEntry)
        = (⟨.mk (mintId k) (extractContent l).1 (extractContent l).2
            (some true) (some []), ((getIndent l : Nat) : Int)⟩ :: pre)
          ++ [last] from by simp]
      rw [List.getLast?_concat] at hind ⊢
      rw [hind]
      exact hbot

/-! ### Indentation of serialized lines -/

mutual

theorem getIndent_linesNode_ge (n : NodeData) : ∀ (d : Nat),
    ∀ l ∈ processNode n d false, 2 * d ≤ getIndent l := by
  cases n with
  | mk i t dir exp ch =>
    intro d l hl
    rw [processNode] at hl
    rcases List.mem_cons.mp hl with rfl | hl
    · rw [getIndent_lineFor_nonroot]
    · have := getIndent_linesChildrenOpt_ge ch (d + 1) l hl
      omega

theorem getIndent_linesChildrenOpt_ge (ch : Option (List NodeData)) :
    ∀ (d : Nat), ∀ l ∈ processChildrenOpt ch d, 2 * d ≤ getIndent l := by
  cases ch with
  | none => intro d l hl; cases hl
  | some cs =>
    intro d l hl
    rw [processChildrenOpt] at hl
    exact getIndent_linesChildren_ge cs d l hl

theorem getIndent_linesChildren_ge (cs : List NodeData) : ∀ (d : Nat),
    ∀ l ∈ processChildren cs d, 2 * d ≤ getIndent l := by
  cases cs with
  | nil => intro d l hl; cases hl
  | cons c rest =>
    intro d l hl
    rw [processChildren] at hl
    rcases List.mem_append.mp hl with hl | hl
    · exact getIndent_linesNode_ge c d l hl
    · exact getIndent_linesChildren_ge rest d l hl

end

theorem mermaidToDataFlag_header (m r0 : List Char) (rs : List (List Char))
    (hf : (splitNl m).filter (fun l => !(trimJs l).isEmpty)
      = "mindmap".data :: r0 :: rs) :
    (mermaidToDataFlag m).2 =
      (rs.foldl anyReseed
        (⟨[⟨.mk "root".data (extractContent r0).1 none (some true) (some []),
          ((getIndent r0 : Nat) : Int)⟩], 0⟩, false)).2 := by
  rw [mermaidToDataFlag]
  simp only [hf]
  rw [if_pos (by decide)]

/-- On the serializer's own output of a newline-free tree, the defensive
re-seed branch of the parsing loop is never executed. -/
theorem reseed_dead_on_own_output (T : NodeData) (h : NlFreeTree T) :
    (mermaidToDataFlag (dataToMermaid ⟨some T⟩)).2 = false := by
  cases T with
  | mk i t dir exp ch =>
    rw [dataToMermaid]
    have hlines : splitNl (joinNl ("mindmap".data ::
        processNode (.mk i t dir exp ch) 1 true))
        = "mindmap".data :: processNode (.mk i t dir exp ch) 1 true := by
      apply splitNl_joinNl _ (by simp)
      intro l hl
      rcases List.mem_cons.mp hl with rfl | hl
      · decide
      · exact nl_free_linesNode _ 1 true h l hl
    have hfilter : ("mindmap".data ::
        processNode (.mk i t dir exp ch) 1 true).filter
        (fun l => !(trimJs l).isEmpty)
        = "mindmap".data :: processNode (.mk i t dir exp ch) 1 true := by
      rw [List.filter_eq_self]
      intro l hl
      rcases List.mem_cons.mp hl with rfl | hl
      · decide
      · have hne := trim_ne_linesNode _ 1 true l hl
        simp only [Bool.not_eq_true', List.isEmpty_eq_false]
        exact hne
    rw [mermaidToDataFlag_header _ (lineFor t dir 1 true)
      (processChildrenOpt ch 2) (by rw [hlines, hfilter, processNode])]
    rw [getIndent_lineFor_root]
    apply foldl_anyReseed_false
    · intro l hl
      have := getIndent_linesChildrenOpt_ge ch 2 l hl
      omega
    · rfl

/-! ### Characterization of the expansion-state table -/

/-- The entries a single node writes, newest first (the topic entry is
written after the id entry). -/
def ownEntries : NodeData → List (List Char × Bool)
  | .mk i t _ e _ =>
    (if t ≠ [] then [(topicKey t, e.getD true)] else [])
      ++ (if i ≠ [] ∧ e.isSome then [(i, e.getD true)] else [])

theorem lookup_append (l1 l2 : List (List Char × Bool)) (k : List Char) :
    (l1 ++ l2).lookup k = ((l1.lookup k).or (l2.lookup k)) := by
  induction l1 with
  | nil => simp [List.lookup]
  | cons a l ih =>
    obtain ⟨ka, va⟩ := a
    rw [List.cons_append, List.lookup, List.lookup]
    by_cases h : k == ka
    · simp [h]
    · simp only [Bool.not_eq_true] at h
      simp [h, ih]

mutual

theorem saveExpandedStates_append (n : NodeData) : ∀ acc,
    saveExpandedStates n acc = saveExpandedStates n [] ++ acc := by
  cases n with
  | mk i t dd e ch =>
    intro acc
    rw [saveExpandedStates, saveExpandedStates]
    rw [saveChildrenOpt_append ch]
    conv_rhs => rw [saveChildrenOpt_append ch]
    by_cases ht : t ≠ [] <;> by_cases hi : i ≠ [] ∧ e.isSome <;>
      simp [ht, hi]

theorem saveChildrenOpt_append (ch : Option (List NodeData)) : ∀ acc,
    saveChildrenOpt ch acc = saveChildrenOpt ch [] ++ acc := by
  cases ch with
  | none => intro acc; rw [saveChildrenOpt, saveChildrenOpt]; rfl
  | some cs =>
    intro acc
    rw [saveChildrenOpt, saveChildrenOpt]
    exact saveChildren_append cs acc

theorem saveChildren_append (cs : List NodeData) : ∀ acc,
    saveChildren cs acc = saveChildren cs [] ++ acc := by
  cases cs with
  | nil => intro acc; rw [saveChildren, saveChildren]; rfl
  | cons c rest =>
    intro acc
    rw [saveChildren, saveChildren]
    rw [saveExpandedStates_append c acc, saveChildren_append rest,
      saveExpandedStates_append c []]
    conv_rhs => rw [saveChildren_append rest]
    simp

end

theorem save_decomp (n : NodeData) :
    saveExpandedStates n [] = saveChildrenOpt (chOf n) [] ++ ownEntries n := by
  cases n with
  | mk i t dd e ch =>
    rw [saveExpandedStates, chOf, ownEntries]
    rw [saveChildrenOpt_append ch]
    by_cases ht : t ≠ [] <;> by_cases hi : i ≠ [] ∧ e.isSome <;>
      simp [ht, hi]

theorem option_or_map (a b : Option NodeData) :
    ((a.or b).map (fun x => (expOf x).getD true))
      = ((a.map (fun x => (expOf x).getD true)).or
          (b.map (fun x => (expOf x).getD true))) := by
  cases a <;> rfl

theorem topicKey_inj (t t' : List Char) (h : topicKey t = topicKey t') :
    t = t' := by
  rw [topicKey, topicKey] at h
  exact List.append_cancel_left h

theorem lookup_ownEntries_topic (i t' : List Char) (dd : Option Nat)
    (e : Option Bool) (ch : Option (List NodeData)) (t : List Char)
    (ht : t ≠ []) (hid : isPre "topic:".data i = false) :
    (ownEntries (.mk i t' dd e ch)).lookup (topicKey t)
      = (List.find? (fun x => topicOf x == t)
          [NodeData.mk i t' dd e ch]).map (fun x => (expOf x).getD true) := by
  rw [ownEntries]
  have hidne : topicKey t ≠ i := by
    intro hcon
    rw [← hcon, topicKey] at hid
    rw [isPre_append] at hid
    cases hid
  have hlookupId : (if i ≠ [] ∧ e.isSome then [(i, e.getD true)]
      else []).lookup (topicKey t) = none := by
    by_cases hi : i ≠ [] ∧ e.isSome
    · rw [if_pos hi, List.lookup]
      rw [show (topicKey t == i) = false from by
        simp only [beq_eq_false_iff_ne, ne_eq]
        exact hidne]
      rfl
    · rw [if_neg hi]
      rfl
  by_cases hteq : t' = t
  · subst hteq
    rw [if_pos ht, List.singleton_append, List.lookup]
    rw [show (topicKey t' == topicKey t') = true from by simp]
    rw [List.find?]
    rw [show (topicOf (NodeData.mk i t' dd e ch) == t') = true from by
      rw [topicOf]; simp]
    rfl
  · have hfind : List.find? (fun x => topicOf x == t)
        [NodeData.mk i t' dd e ch] = none := by
      rw [List.find?]
      rw [show (topicOf (NodeData.mk i t' dd e ch) == t) = false from by
        rw [topicOf]
        simp only [beq_eq_false_iff_ne, ne_eq]
        exact hteq]
      rfl
    rw [hfind]
    by_cases ht' : t' ≠ []
    · rw [if_pos ht', List.singleton_append, List.lookup]
      rw [show (topicKey t == topicKey t') = false from by
        simp only [beq_eq_false_iff_ne, ne_eq]
        intro hcon
        exact hteq (topicKey_inj t t' hcon).symm]
      rw [hlookupId]
      rfl
    · rw [if_neg ht', List.nil_append, hlookupId]
      rfl

mutual

theorem lookup_save_topic (P : NodeData) : ∀ (t : List Char), t ≠ [] →
    (∀ x ∈ preorderNode P, isPre "topic:".data (idOf x) = false) →
    (saveExpandedStates P []).lookup (topicKey t)
      = ((preorderNode P).reverse.find? (fun x => topicOf x == t)).map
          (fun x => (expOf x).getD true) := by
  cases P with
  | mk i t' dd e ch =>
    intro t ht hids
    rw [save_decomp, lookup_append]
    rw [show chOf (NodeData.mk i t' dd e ch) = ch from rfl]
    rw [lookup_saveChildrenOpt_topic ch t ht (fun x hx => hids x (by
      rw [preorderNode]
      exact List.mem_cons_of_mem _ hx))]
    rw [show (preorderNode (NodeData.mk i t' dd e ch)).reverse
      = (preorderChildrenOpt ch).reverse ++ [NodeData.mk i t' dd e ch] from by
        rw [preorderNode]; simp]
    rw [List.find?_append, option_or_map]
    rw [lookup_ownEntries_topic i t' dd e ch t ht (by
      have hh := hids (NodeData.mk i t' dd e ch) (by rw [preorderNode]; simp)
      rwa [idOf] at hh)]

theorem lookup_saveChildrenOpt_topic (ch : Option (List NodeData)) :
    ∀ (t : List Char), t ≠ [] →
    (∀ x ∈ preorderChildrenOpt ch, isPre "topic:".data (idOf x) = false) →
    (saveChildrenOpt ch []).lookup (topicKey t)
      = ((preorderChildrenOpt ch).reverse.find? (fun x => topicOf x == t)).map
          (fun x => (expOf x).getD true) := by
  cases ch with
  | none => intro t _ _; rfl
  | some cs =>
    intro t ht hids
    rw [saveChildrenOpt, preorderChildrenOpt]
    exact lookup_saveChildren_topic cs t ht
      (by rwa [preorderChildrenOpt] at hids)

theorem lookup_saveChildren_topic (cs : List NodeData) :
    ∀ (t : List Char), t ≠ [] →
    (∀ x ∈ preorderChildren cs, isPre "topic:".data (idOf x) = false) →
    (saveChildren cs []).lookup (topicKey t)
      = ((preorderChildren cs).reverse.find? (fun x => topicOf x == t)).map
          (fun x => (expOf x).getD true) := by
  cases cs with
  | nil => intro t _ _; rfl
  | cons c rest =>
    intro t ht hids
    rw [saveChildren, saveChildren_append rest, lookup_append]
    rw [lookup_saveChildren_topic rest t ht (fun x hx => hids x (by
      rw [preorderChildren]
      exact List.mem_append.mpr (Or.inr hx)))]
    rw [lookup_save_topic c t ht (fun x hx => hids x (by
      rw [preorderChildren]
      exact List.mem_append.mpr (Or.inl hx)))]
    rw [show (preorderChildren (c :: rest)).reverse
      = (preorderChildren rest).reverse ++ (preorderNode c).reverse from by
        rw [preorderChildren]; simp]
    rw [List.find?_append, option_or_map]

end

/-- Field-level behaviour of `restoreExpandedStates` at one node: id match
first, else topic match, else keep the incoming value; other fields and
the recursion into children are untouched. -/
theorem restore_fields (tbl : List (List Char × Bool)) (n : NodeData) :
    idOf (restoreExpandedStates tbl n) = idOf n ∧
    topicOf (restoreExpandedStates tbl n) = topicOf n ∧
    dirOf (restoreExpandedStates tbl n) = dirOf n ∧
    expOf (restoreExpandedStates tbl n) =
      (if idOf n ≠ [] ∧ (tbl.lookup (idOf n)).isSome then
        some ((tbl.lookup (idOf n)).getD true)
      else if topicOf n ≠ [] ∧ (tbl.lookup (topicKey (topicOf n))).isSome then
        some ((tbl.lookup (topicKey (topicOf n))).getD true)
      else expOf n) ∧
    chOf (restoreExpandedStates tbl n)
      = restoreChildrenOpt tbl (chOf n) := by
  cases n with
  | mk i t dd e ch => exact ⟨rfl, rfl, rfl, rfl, rfl⟩

/-! ### Full-pop and nearest-ancestor characterization of the pop loop -/

theorem squashN_cons_cons (a a' : PEntry) (r : List PEntry) (b : NodeData) :
    squashN (a :: a' :: r) b
      = squashN (⟨appendChild a'.node a.node, a'.indent⟩ :: r) b :=
  squashN_cons a a' r b

theorem collapseTo_all_ge_len : ∀ (m : Nat) (i : Int) (S : List PEntry)
    (e : PEntry), S.length = m → S.getLast? = some e →
    (∀ x ∈ S, i ≤ x.indent) →
    collapseTo i S = [⟨squashN S.dropLast e.node, -1⟩] := by
  intro m
  induction m with
  | zero =>
    intro i S e hlen hlast _
    rw [List.length_eq_zero] at hlen
    subst hlen
    cases hlast
  | succ p ih =>
    intro i S e hlen hlast hall
    cases S with
    | nil => cases hlast
    | cons x S' =>
      cases S' with
      | nil =>
        rw [List.getLast?_singleton, Option.some_inj] at hlast
        subst hlast
        rw [collapseTo_one, if_pos (hall x (by simp))]
        rw [List.dropLast_single, squashN_nil]
      | cons y r =>
        rw [collapseTo_two, if_pos (hall x (by simp))]
        cases r with
        | nil =>
          have he : e = y := by
            rw [List.getLast?_cons_cons, List.getLast?_singleton,
              Option.some_inj] at hlast
            exact hlast.symm
          subst he
          rw [collapseTo_one, if_pos (by simpa using hall e (by simp))]
          rw [show ((x :: [e]).dropLast : List PEntry) = [x] from rfl]
          rw [squashN_one]
        | cons z r₂ =>
          have hlast' : ((⟨appendChild y.node x.node, y.indent⟩ : PEntry)
              :: z :: r₂).getLast? = some e := by
            simp only [List.getLast?_cons_cons] at hlast ⊢
            exact hlast
          rw [ih i _ e (by simp at hlen ⊢; omega) hlast' (by
            intro w hw
            rcases List.mem_cons.mp hw with rfl | hw
            · exact hall y (by simp)
            · exact hall w (by simp [hw]))]
          rw [show ((x :: y :: z :: r₂).dropLast : List PEntry)
            = x :: y :: (z :: r₂).dropLast from rfl]
          rw [show ((⟨appendChild y.node x.node, y.indent⟩ :: z :: r₂
            ).dropLast : List PEntry)
            = ⟨appendChild y.node x.node, y.indent⟩ :: (z :: r₂).dropLast
            from rfl]
          rw [squashN_cons_cons]

theorem exists_first_lt (i : Int) (S : List PEntry)
    (h : ∃ e ∈ S, e.indent < i) :
    ∃ (pre : List PEntry) (e : PEntry) (suf : List PEntry),
      S = pre ++ e :: suf ∧ (∀ x ∈ pre, i ≤ x.indent) ∧ e.indent < i := by
  induction S with
  | nil => obtain ⟨e, he, -⟩ := h; cases he
  | cons x S' ih =>
    by_cases hx : x.indent < i
    · exact ⟨[], x, S', by simp, by simp, hx⟩
    · obtain ⟨e, he, hei⟩ := h
      rcases List.mem_cons.mp he with rfl | he
      · exact absurd hei hx
      · obtain ⟨pre, e', suf, hdec, hpre, he'⟩ := ih ⟨e, he, hei⟩
        refine ⟨x :: pre, e', suf, by rw [hdec]; rfl, ?_, he'⟩
        intro z hz
        rcases List.mem_cons.mp hz with rfl | hz
        · omega
        · exact hpre z hz

/-! ## Claim-level definitions -/

/-- Topics of a parse result, in depth-first pre-order. -/
def topicsOfData (d : MMData) : List (List Char) :=
  match d.nodeData with
  | none => []
  | some n => topicsNode n

/-- Direction of the first child of the root of a parse result. -/
def firstChildDir (d : MMData) : Option Nat :=
  match d.nodeData with
  | none => none
  | some n =>
    match childrenList n with
    | [] => none
    | c :: _ => dirOf c

/-- Direction of the first child of the first child of the root (a node
at depth 2) of a parse result. -/
def grandChildDir (d : MMData) : Option Nat :=
  match d.nodeData with
  | none => none
  | some n =>
    match childrenList n with
    | [] => none
    | c :: _ =>
      match childrenList c with
      | [] => none
      | g :: _ => dirOf g

/-- Whether no content lines remain after dropping blank lines and the
case-insensitive `mindmap` header. -/
def noContentDocB (m : List Char) : Bool :=
  match (splitNl m).filter (fun l => !(trimJs l).isEmpty) with
  | [] => true
  | [l0] => toLowerJs (trimJs l0) == "mindmap".data
  | _ :: _ :: _ => false

/-- A two-node tree whose child topic contains a newline. -/
def nlTopicTree1 : NodeData :=
  .mk "r".data "R".data none (some true)
    (some [.mk "a".data "a\nb".data none (some true) (some [])])

/-- A tree whose topics hold quotes, brackets, parentheses, braces, a tab
and an emoji, but no newline, escape token, legacy entity or leading
direction tag. -/
def cleanTree1 : NodeData :=
  .mk "r".data "Say \"hi\" (x) [y] \x7bz\x7d 🌟".data none (some true)
    (some [.mk "a".data "tab\there".data none (some false) (some [])])

/-- Another tree with a newline inside a topic. -/
def nlTopicTree2 : NodeData :=
  .mk "r".data "Root".data none (some true)
    (some [.mk "a".data "first\nsecond".data none (some true) (some [])])

/-- A clean two-level tree. -/
def cleanTree2 : NodeData :=
  .mk "r".data "R (1)".data none (some true)
    (some [.mk "a".data "a \"q\" [x]".data (some 1) (some false)
      (some [.mk "b".data "deep".data none (some true) (some [])])])

/-- Previous tree of the reconciliation scenario: id `n1`, topic `Alpha`,
collapsed. -/
def prevAlpha : NodeData :=
  .mk "n1".data "Alpha".data none (some false) (some [])

/-- Freshly parsed node of the scenario: new id `z9`, same topic `Alpha`,
the parser's default `expanded = true`. -/
def newAlpha : NodeData :=
  .mk "z9".data "Alpha".data none (some true) (some [])

/-- A tree whose right-directed child topic contains a newline. -/
def nlDirTree4 : NodeData :=
  .mk "r".data "R".data none (some true)
    (some [.mk "a".data "a\nb".data (some 1) (some true) (some [])])

/-- A newline-free tree with one right and one left child. -/
def cleanTree4 : NodeData :=
  .mk "r".data "R".data none (some true)
    (some [.mk "a".data "right".data (some 1) (some true) (some []),
           .mk "b".data "left".data (some 0) (some true) (some [])])

/-- A document whose depth-2 line carries a literal `[R] ` tag inside the
quotes. -/
def taggedDoc5 : List Char :=
  "mindmap\n  root((\"R\"))\n    \"a\"\n      \"[R] b\"".data

/-- A newline-free, tag-free tree of depth 3. -/
def cleanTree5 : NodeData :=
  .mk "r".data "R".data none (some true)
    (some [.mk "a".data "a".data (some 1) (some true)
      (some [.mk "b".data "b".data none (some true) (some [])])])

/-- A parser stack: one child entry at width 4 above the root entry at
width 2. -/
def stack6 : List PEntry :=
  [⟨.mk "id0".data "a".data none (some true) (some []), (4 : Int)⟩,
   ⟨.mk "root".data "R".data none (some true) (some []), (2 : Int)⟩]

/-- A tree with a newline inside a topic, for the re-seed instrumentation. -/
def nlTopicTree10 : NodeData :=
  .mk "r".data "Root".data none (some true)
    (some [.mk "a".data "x\ny".data none (some true) (some [])])

/-- A newline-free tree with nested and sibling children. -/
def cleanTree10 : NodeData :=
  .mk "r".data "R".data none (some true)
    (some [.mk "a".data "a".data none (some true)
      (some [.mk "b".data "b".data none (some true) (some [])]),
      .mk "c".data "c".data none (some true) (some [])])

/-! ## The claims -/

/-- C1, corrected: one serialize-then-parse cycle preserves the pre-order
sequence of topics for every tree whose topics are clean (no newline, no
occurrence of the escape token or a legacy HTML entity, no leading
direction tag); a topic containing a newline is split into several nodes
and is not preserved (`C1_newline_cex`). -/
theorem C1_roundtrip_topics (T : NodeData) (h : CleanTree T) :
    topicsOfData (mermaidToData (dataToMermaid ⟨some T⟩)) = topicsNode T := by
  have hnl : NlFreeTree T := fun t ht => (h t ht).1
  rw [roundTrip_eq_image T hnl]
  rw [show topicsOfData ⟨some (normalizeNodeData (rootImage T))⟩
    = topicsNode (normalizeNodeData (rootImage T)) from rfl]
  rw [topics_normalize, topics_rootImage T h]

/-- Witness: the round trip preserves the topics of a concrete clean tree
with quotes, brackets, parentheses, braces, a tab and an emoji. -/
theorem C1_roundtrip_topics_inst :
    CleanTree cleanTree1 ∧
      topicsOfData (mermaidToData (dataToMermaid ⟨some cleanTree1⟩))
        = topicsNode cleanTree1 :=
  ⟨by decide, C1_roundtrip_topics cleanTree1 (by decide)⟩

/-- Counterexample to the unrestricted claim: a topic containing a newline
is not preserved by one serialize-then-parse cycle. -/
theorem C1_newline_cex :
    topicsOfData (mermaidToData (dataToMermaid ⟨some nlTopicTree1⟩))
      ≠ topicsNode nlTopicTree1 := by decide

/-- C2, corrected: serialize-parse-serialize reproduces the first
serialization exactly for every tree whose topics are clean (no newline,
no occurrence of the escape token or a legacy HTML entity, no leading
direction tag); a newline inside a topic breaks it (`C2_newline_cex`),
even though a newline is not affected by the legacy-entity fallback. -/
theorem C2_reserialize (T : NodeData) (h : CleanTree T) :
    dataToMermaid (mermaidToData (dataToMermaid ⟨some T⟩))
      = dataToMermaid ⟨some T⟩ := by
  have hnl : NlFreeTree T := fun t ht => (h t ht).1
  rw [roundTrip_eq_image T hnl, norm_rootImage]
  rw [dataToMermaid, dataToMermaid]
  dsimp only
  rw [lines_rootImage T h]

/-- Witness: idempotent re-serialization of a concrete clean tree. -/
theorem C2_reserialize_inst :
    CleanTree cleanTree2 ∧
      dataToMermaid (mermaidToData (dataToMermaid ⟨some cleanTree2⟩))
        = dataToMermaid ⟨some cleanTree2⟩ :=
  ⟨by decide, C2_reserialize cleanTree2 (by decide)⟩

/-- Counterexample to the claim as stated: a topic containing a newline
(a character not touched by the legacy-entity fallback) changes the
second serialization. -/
theorem C2_newline_cex :
    dataToMermaid (mermaidToData (dataToMermaid ⟨some nlTopicTree2⟩))
      ≠ dataToMermaid ⟨some nlTopicTree2⟩ := by decide

/-- C3, confirmed: reconciliation sets each node of the new tree from the
saved table by identical id first, else by identical topic, else keeps
the parser's default; the topic-keyed entry holds the value of the
previous node with that topic recorded last in traversal order (the
lookup hypothesis rules out ids that collide with the `topic:` key
space); and the named scenario ends with `expanded = false`. -/
theorem C3_expansion_reconciliation :
    (∀ (tbl : List (List Char × Bool)) (n : NodeData),
      idOf (restoreExpandedStates tbl n) = idOf n ∧
      topicOf (restoreExpandedStates tbl n) = topicOf n ∧
      expOf (restoreExpandedStates tbl n) =
        (if idOf n ≠ [] ∧ (tbl.lookup (idOf n)).isSome then
          some ((tbl.lookup (idOf n)).getD true)
        else if topicOf n ≠ [] ∧ (tbl.lookup (topicKey (topicOf n))).isSome
        then
          some ((tbl.lookup (topicKey (topicOf n))).getD true)
        else expOf n)) ∧
    (∀ (P : NodeData) (t : List Char), t ≠ [] →
      (∀ x ∈ preorderNode P, isPre "topic:".data (idOf x) = false) →
      (saveExpandedStates P []).lookup (topicKey t)
        = ((preorderNode P).reverse.find? (fun x => topicOf x == t)).map
            (fun x => (expOf x).getD true)) ∧
    expOf (restoreExpandedStates (saveExpandedStates prevAlpha []) newAlpha)
      = some false := by
  refine ⟨?_, ?_, by decide⟩
  · intro tbl n
    obtain ⟨h1, h2, -, h4, -⟩ := restore_fields tbl n
    exact ⟨h1, h2, h4⟩
  · intro P t ht hids
    exact lookup_save_topic P t ht hids

/-- Witness: the saved table of the `Alpha` tree answers the topic lookup
with the last recorded value. -/
theorem C3_expansion_reconciliation_inst :
    ("Alpha".data ≠ ([] : List Char)) ∧
      (saveExpandedStates prevAlpha []).lookup (topicKey "Alpha".data)
        = ((preorderNode prevAlpha).reverse.find?
            (fun x => topicOf x == "Alpha".data)).map
            (fun x => (expOf x).getD true) :=
  ⟨by decide, C3_expansion_reconciliation.2.1 prevAlpha "Alpha".data
    (by decide) (by decide)⟩

/-- C4, corrected: on a tree whose topics are newline-free, a depth-1
node with direction Right is serialized with the literal `[R] ` prefix
inside the quotes before the escaped topic and reparses to direction
Right, likewise `[L] ` for Left, and the serializer emits no direction
tag at depth 2 or deeper; with a newline in the topic the emitted line is
torn apart and the direction is lost (`C4_newline_cex`). -/
theorem C4_direction_fidelity (T : NodeData) (h : NlFreeTree T) :
    (∀ t : List Char, lineFor t (some 1) 2 false
        = indentStr 2 ++ ('"' :: (("[R] ".data ++ escapeTopic t) ++ ['"']))) ∧
    (∀ t : List Char, lineFor t (some 0) 2 false
        = indentStr 2 ++ ('"' :: (("[L] ".data ++ escapeTopic t) ++ ['"']))) ∧
    (∀ (t : List Char) (dir : Option Nat) (d : Nat), 3 ≤ d →
      lineFor t dir d false
        = indentStr d ++ ('"' :: (escapeTopic t ++ ['"']))) ∧
    (∀ (R c : NodeData) (j : Nat),
      (mermaidToData (dataToMermaid ⟨some T⟩)).nodeData = some R →
      (childrenList T).get? j = some c →
      (dirOf c = some 1 →
        ∃ cR, (childrenList R).get? j = some cR ∧ dirOf cR = some 1) ∧
      (dirOf c = some 0 →
        ∃ cR, (childrenList R).get? j = some cR ∧ dirOf cR = some 0)) := by
  refine ⟨?_, ?_, ?_, ?_⟩
  · intro t
    rw [lineFor_nonroot_shape,
      show dirTag 2 (some 1) = "[R] ".data from rfl]
  · intro t
    rw [lineFor_nonroot_shape,
      show dirTag 2 (some 0) = "[L] ".data from rfl]
  · intro t dir d hd
    rw [lineFor_nonroot_shape,
      show dirTag d dir = [] from by unfold dirTag; rw [if_neg (by omega)],
      List.nil_append]
  · intro R c j hR hc
    have hR2 : R = rootImage T := by
      rw [roundTrip_eq_image T h] at hR
      have hsome : some (normalizeNodeData (rootImage T)) = some R := hR
      rw [norm_rootImage] at hsome
      exact (Option.some_inj.mp hsome).symm
    subst hR2
    cases T with
    | mk i t dir exp ch =>
      rw [show childrenList (NodeData.mk i t dir exp ch) = ch.getD []
        from rfl] at hc
      cases ch with
      | none => cases j <;> cases hc
      | some cs =>
        rw [show (some cs).getD ([] : List NodeData) = cs from rfl] at hc
        obtain ⟨kc, himg⟩ := imageChildren_get cs 0 2 j c hc
        have hcl : childrenList (rootImage (NodeData.mk i t dir exp (some cs)))
            = imageChildren 0 2 cs := rfl
        constructor
        · intro h1
          refine ⟨imageNode kc 2 c, by rw [hcl]; exact himg, ?_⟩
          cases c with
          | mk ic tc dc ec chc =>
            rw [dirOf] at h1
            subst h1
            rw [imageNode, dirOf, extract_tagR_full]
        · intro h0
          refine ⟨imageNode kc 2 c, by rw [hcl]; exact himg, ?_⟩
          cases c with
          | mk ic tc dc ec chc =>
            rw [dirOf] at h0
            subst h0
            rw [imageNode, dirOf, extract_tagL_full]

/-- Witness: the right-tag line shape at a concrete topic, under a
concrete newline-free tree. -/
theorem C4_direction_fidelity_inst :
    NlFreeTree cleanTree4 ∧
      lineFor "right".data (some 1) 2 false
        = indentStr 2 ++ ('"' :: (("[R] ".data ++ escapeTopic "right".data)
            ++ ['"'])) :=
  ⟨by decide, (C4_direction_fidelity cleanTree4 (by decide)).1 "right".data⟩

/-- Counterexample to the unrestricted claim: a right-directed depth-1
node whose topic contains a newline does not reparse to direction
Right. -/
theorem C4_newline_cex :
    firstChildDir (mermaidToData (dataToMermaid ⟨some nlDirTree4⟩))
      ≠ some 1 := by decide

/-- C5, corrected: for every input text the parsed root carries no
direction; and on the serializer's own output of a newline-free,
tag-free tree no node at depth 2 or deeper carries a direction. For
arbitrary input the invariant fails: a quoted line starting with `[R] `
is stripped and tagged at any depth (`C5_depth2_cex`), and a depth-1
node need not carry a direction at all. -/
theorem C5_direction_depth :
    (∀ (m : List Char) (R : NodeData),
      (mermaidToData m).nodeData = some R → dirOf R = none) ∧
    (∀ (T R : NodeData), NlFreeTree T → TagFree T →
      (mermaidToData (dataToMermaid ⟨some T⟩)).nodeData = some R →
      ∀ c ∈ childrenList R, ∀ g ∈ childrenList c,
        ∀ x ∈ preorderNode g, dirOf x = none) := by
  constructor
  · intro m R hR
    obtain ⟨R2, h1, -, hdir, -, -⟩ := mermaid_root_shallow m
    rw [h1, Option.some_inj] at hR
    rw [← hR]
    exact hdir
  · intro T R hnl htag hR
    have hR2 : R = rootImage T := by
      rw [roundTrip_eq_image T hnl] at hR
      have hsome : some (normalizeNodeData (rootImage T)) = some R := hR
      rw [norm_rootImage] at hsome
      exact (Option.some_inj.mp hsome).symm
    subst hR2
    cases T with
    | mk i t dir exp ch =>
      intro c hcmem g hgmem x hx
      rw [show childrenList (rootImage (NodeData.mk i t dir exp ch))
        = imageChildrenOpt 0 2 ch from rfl] at hcmem
      cases ch with
      | none => rw [imageChildrenOpt] at hcmem; cases hcmem
      | some cs =>
        rw [imageChildrenOpt] at hcmem
        obtain ⟨k1, c0, hc0, rfl⟩ := mem_imageChildren cs 0 2 c hcmem
        cases c0 with
        | mk i0 t0 d0 e0 ch0 =>
          rw [show childrenList (imageNode k1 2 (NodeData.mk i0 t0 d0 e0 ch0))
            = imageChildrenOpt (k1 + 1) 3 ch0 from rfl] at hgmem
          cases ch0 with
          | none => rw [imageChildrenOpt] at hgmem; cases hgmem
          | some gs =>
            rw [imageChildrenOpt] at hgmem
            obtain ⟨k2, g0, hg0, rfl⟩ := mem_imageChildren gs (k1 + 1) 3 g
              hgmem
            refine dir_imageNode_deep g0 k2 3 (le_refl 3) ?_ x hx
            intro s hs
            apply htag
            have h1 : s ∈ topicsChildren gs :=
              topics_mem_of_child gs g0 hg0 s hs
            have h2 : s ∈ topicsNode (NodeData.mk i0 t0 d0 e0 (some gs)) := by
              rw [topicsNode]
              refine List.mem_cons_of_mem _ ?_
              rw [show topicsChildrenOpt (some gs) = topicsChildren gs
                from rfl]
              exact h1
            have h3 : s ∈ topicsChildren cs :=
              topics_mem_of_child cs _ hc0 s h2
            rw [topicsNode]
            refine List.mem_cons_of_mem _ ?_
            rw [show topicsChildrenOpt (some cs) = topicsChildren cs from rfl]
            exact h3

/-- Witness: the tree parsed from the bare header has a direction-free
root. -/
theorem C5_direction_depth_inst :
    (mermaidToData "mindmap".data).nodeData
        = some (NodeData.mk "root".data "Root".data none (some true)
            (some [])) ∧
      dirOf (NodeData.mk "root".data "Root".data none (some true) (some []))
        = none :=
  ⟨rfl, C5_direction_depth.1 "mindmap".data
    (NodeData.mk "root".data "Root".data none (some true) (some []))
    rfl⟩

/-- Counterexample to the depth invariant as stated: a tagged quoted line
at depth 2 parses with direction Right defined. -/
theorem C5_depth2_cex :
    grandChildDir (mermaidToData taggedDoc5) = some 1 ∧
      grandChildDir (mermaidToData taggedDoc5) ≠ none := by
  refine ⟨by decide, by decide⟩

/-- C6, confirmed: processing a line pops the stack while the top entry's
width is at least the line's width (each pop attaching the popped node as
the last child of the node below), re-seeds with the bottom (root) node at
width `-1` when everything is popped, and pushes the new node on a stack
that is never empty; the surviving top is the nearest entry with smaller
width, so an inconsistently indented line attaches to the nearest valid
ancestor or to the root and parsing never fails. -/
theorem C6_parent_attachment (i : Int) (S : List PEntry) (hne : S ≠ []) :
    collapseTo i S ≠ [] ∧
    ((∃ pre e suf, S = pre ++ e :: suf ∧ (∀ x ∈ pre, i ≤ x.indent) ∧
        e.indent < i ∧
        collapseTo i S = ⟨squashN pre e.node, e.indent⟩ :: suf) ∨
      ((∀ x ∈ S, i ≤ x.indent) ∧
        collapseTo i S = [⟨squashN S.dropLast (S.getLast hne).node, -1⟩])) ∧
    (∀ (st : PState) (line : List Char),
      stepLine st line = ⟨⟨.mk (mintId st.counter) (extractContent line).1
          (extractContent line).2 (some true) (some []),
        ((getIndent line : Nat) : Int)⟩
          :: collapseTo ((getIndent line : Nat) : Int) st.stack,
        st.counter + 1⟩) ∧
    (∀ (p c : NodeData), chOf (appendChild p c)
        = some (childrenList p ++ [c])) := by
  have hmain : (∃ pre e suf, S = pre ++ e :: suf ∧
      (∀ x ∈ pre, i ≤ x.indent) ∧ e.indent < i ∧
      collapseTo i S = ⟨squashN pre e.node, e.indent⟩ :: suf) ∨
      ((∀ x ∈ S, i ≤ x.indent) ∧
        collapseTo i S = [⟨squashN S.dropLast (S.getLast hne).node, -1⟩]) := by
    by_cases hex : ∃ e ∈ S, e.indent < i
    · obtain ⟨pre, e, suf, hdec, hpre, he⟩ := exists_first_lt i S hex
      refine Or.inl ⟨pre, e, suf, hdec, hpre, he, ?_⟩
      rw [hdec]
      exact collapseTo_spine i pre e suf hpre (not_le.mpr he)
    · push_neg at hex
      exact Or.inr ⟨hex, collapseTo_all_ge_len S.length i S (S.getLast hne)
        rfl (List.getLast?_eq_getLast S hne) hex⟩
  refine ⟨?_, hmain, ?_, ?_⟩
  · rcases hmain with ⟨pre, e, suf, -, -, -, hcol⟩ | ⟨-, hcol⟩
    · rw [hcol]; exact List.cons_ne_nil _ _
    · rw [hcol]; exact List.cons_ne_nil _ _
  · intro st line
    cases st with
    | mk stack k => exact stepLine_eq stack k line
  · intro p c
    cases p with
    | mk pi pt pd pe pch => rfl

/-- Witness: a line of width 4 against a concrete stack keeps the stack
nonempty. -/
theorem C6_parent_attachment_inst :
    stack6 ≠ [] ∧ collapseTo 4 stack6 ≠ [] :=
  ⟨List.cons_ne_nil _ _,
    (C6_parent_attachment 4 stack6 (List.cons_ne_nil _ _)).1⟩

/-- C7, confirmed: the serializer rewrites each topic character by
character, replacing exactly the double quote by `#quot;`, and the
parser decodes extracted content through the five replacements in source
order, `#quot;` then `&quot;` then `&lt;` then `&gt;` then `&amp;`; the
last conjunct separates the order (amp is decoded last, so `&amp;lt;`
yields `&lt;`, not `<`). -/
theorem C7_escape_unescape :
    (∀ t : List Char, escapeTopic t
        = t.flatMap (fun c => if c = '"' then "#quot;".data else [c])) ∧
    (∀ s : List Char, unescapeContent s
        = replaceAll "&amp;".data "&".data
            (replaceAll "&gt;".data ">".data
              (replaceAll "&lt;".data "<".data
                (replaceAll "&quot;".data "\"".data
                  (replaceAll "#quot;".data "\"".data s))))) ∧
    escapeTopic "a\"b".data = "a#quot;b".data ∧
    unescapeContent "#quot;&quot;&lt;&gt;&amp;".data = "\"\"<>&".data ∧
    unescapeContent "&amp;lt;".data = "&lt;".data := by
  refine ⟨?_, fun s => rfl, by decide, by decide, by decide⟩
  intro t
  induction t with
  | nil => rfl
  | cons c cs ih =>
    rw [escapeTopic_cons,
      show (c :: cs).flatMap (fun c => if c = '"' then "#quot;".data else [c])
        = (if c = '"' then "#quot;".data else [c])
          ++ cs.flatMap (fun c => if c = '"' then "#quot;".data else [c])
        from rfl]
    by_cases hc : c = '"'
    · rw [if_pos hc, if_pos hc, ih]
    · rw [if_neg hc, if_neg hc, ih]
      rfl

/-- C8, confirmed: for every input string the parser returns a tree with
a present root of fixed id `root` and `expanded = true` and a present
child array; and when no content lines remain after blanks and the
case-insensitive header, the result is the one-node placeholder with
topic `Root` and no children. -/
theorem C8_parser_totality :
    (∀ m : List Char, ∃ R, (mermaidToData m).nodeData = some R ∧
      idOf R = "root".data ∧ expOf R = some true ∧ (chOf R).isSome) ∧
    (∀ m : List Char, noContentDocB m = true →
      mermaidToData m = ⟨some (.mk "root".data "Root".data none (some true)
        (some []))⟩) := by
  constructor
  · intro m
    obtain ⟨R, h1, h2, -, h3, h4⟩ := mermaid_root_shallow m
    exact ⟨R, h1, h2, h3, h4⟩
  · intro m hm
    have hp : mermaidToData m = placeholderData := by
      apply mermaidToData_placeholder
      rw [noContentDocB] at hm
      cases hf : (splitNl m).filter (fun l => !(trimJs l).isEmpty) with
      | nil => exact Or.inl rfl
      | cons l0 rest =>
        rw [hf] at hm
        cases rest with
        | nil => exact Or.inr ⟨l0, rfl, eq_of_beq hm⟩
        | cons l1 r2 => exact Bool.noConfusion hm
    rw [hp]
    rfl

/-- Witness: a padded, mixed-case header line alone yields exactly the
placeholder tree. -/
theorem C8_parser_totality_inst :
    noContentDocB "  MindMap  ".data = true ∧
      mermaidToData "  MindMap  ".data
        = ⟨some (.mk "root".data "Root".data none (some true) (some []))⟩ :=
  ⟨by decide, C8_parser_totality.2 "  MindMap  ".data (by decide)⟩

/-- C9, confirmed: normalization maps every node of the tree, forcing
`expanded` to be present (keeping a present value, defaulting to `true`),
forcing `children` to a present array (empty when absent), leaving id,
topic and direction unchanged on every node; `normalizeMindElixirData`
lifts it through the optional root, and the model value handed to the
widget's refresh by a text update is always of that normalized form. -/
theorem C9_normalization :
    (∀ n : NodeData, preorderNode (normalizeNodeData n)
        = (preorderNode n).map normalizeNodeData) ∧
    (∀ n : NodeData,
      idOf (normalizeNodeData n) = idOf n ∧
      topicOf (normalizeNodeData n) = topicOf n ∧
      dirOf (normalizeNodeData n) = dirOf n ∧
      expOf (normalizeNodeData n) = some ((expOf n).getD true) ∧
      chOf (normalizeNodeData n)
        = some ((childrenList n).map normalizeNodeData)) ∧
    (∀ d : MMData, (normalizeMindElixirData d).nodeData
        = d.nodeData.map normalizeNodeData) ∧
    (∀ (cur : MMData) (m : List Char),
      ∃ r, setMermaidModel cur m = normalizeMindElixirData r) := by
  refine ⟨preorder_normalize, normalize_fields, ?_, ?_⟩
  · intro d
    cases d with
    | mk nd =>
      cases nd with
      | none => rfl
      | some n => rfl
  · intro cur m
    exact ⟨_, rfl⟩

/-- C10, corrected: while parsing the serializer's output of a tree whose
topics are newline-free, the defensive re-seed branch never runs (the
root line sits at width 2 and every other line at width 4 or more, so
the bottom entry is never popped), and the instrumented parser computes
the same result as the plain one; a newline inside a topic emits a
fragment line of width 0 that pops the whole stack and does trigger the
re-seed (`C10_newline_cex`). -/
theorem C10_reseed_dead (T : NodeData) (h : NlFreeTree T) :
    (mermaidToDataFlag (dataToMermaid ⟨some T⟩)).2 = false ∧
    (∀ m : List Char, (mermaidToDataFlag m).1 = mermaidToData m) :=
  ⟨reseed_dead_on_own_output T h, mermaidToDataFlag_fst⟩

/-- Witness: the re-seed flag stays `false` on the output of a concrete
newline-free tree. -/
theorem C10_reseed_dead_inst :
    NlFreeTree cleanTree10 ∧
      (mermaidToDataFlag (dataToMermaid ⟨some cleanTree10⟩)).2 = false :=
  ⟨by decide, (C10_reseed_dead cleanTree10 (by decide)).1⟩

/-- Counterexample to the unrestricted claim: a newline inside a topic
makes the parser execute the defensive re-seed branch on the
serializer's own output. -/
theorem C10_newline_cex :
    (mermaidToDataFlag (dataToMermaid ⟨some nlTopicTree10⟩)).2 = true := by
  decide


end MindMap
